import Mathlib

/-!
Shallow embedding of the hair BSDF of SORT (src/bsdf/hair.cpp), together with
theorems settling the specification claims about it.  Machine floats are
modelled as real numbers; C division by zero (which yields ±inf/NaN) is
modelled by Lean's division (which yields 0) — every theorem about a branch
where this matters keeps the relevant denominators nonzero explicitly.
The uniform random draws consumed through `sort_canonical()` are threaded as
explicit real parameters in `[0,1)`.
-/

open Real

noncomputable section

/-- Number of separately handled scattering lobes, `PMAX` in the source.
Modelled from the spec: `PMAX` is declared in a header that is not part of
the provided sources; the spec fixes its value to 3. -/
def PMAX : ℕ := 3

/-- `TWO_PI` of the source. -/
def TWO_PI : ℝ := 2 * Real.pi

/-- `INV_TWOPI` of the source. -/
def INV_TWOPI : ℝ := 1 / (2 * Real.pi)

/-- `SQR` of the source: squaring. -/
def SQR (x : ℝ) : ℝ := x * x

/-- Modelled from the spec: `ssqrt` lives in the math utilities that are not
part of the provided sources; the spec describes it as a clamped square root
that returns 0 rather than NaN for (slightly) negative arguments. -/
def ssqrt (x : ℝ) : ℝ := Real.sqrt (max x 0)

/-- Modelled from the spec: `clamp` lives in the math utilities that are not
part of the provided sources; it restricts a value into `[a, b]`. -/
def clamp (x a b : ℝ) : ℝ := min (max x a) b

/-- Modelled from the spec: the per-channel color/energy value.  The spec
fixes a small fixed-size tuple of channel intensities; three channels are
used here. -/
structure Spectrum where
  r : ℝ
  g : ℝ
  b : ℝ

namespace Spectrum

/-- Componentwise addition of energy values. -/
instance : Add Spectrum := ⟨fun s t => ⟨s.r + t.r, s.g + t.g, s.b + t.b⟩⟩

/-- The zero energy value, `Spectrum(0.0f)`. -/
instance : Zero Spectrum := ⟨⟨0, 0, 0⟩⟩

@[simp] theorem add_r (s t : Spectrum) : (s + t).r = s.r + t.r := rfl
@[simp] theorem add_g (s t : Spectrum) : (s + t).g = s.g + t.g := rfl
@[simp] theorem add_b (s t : Spectrum) : (s + t).b = s.b + t.b := rfl
@[simp] theorem zero_r : (0 : Spectrum).r = 0 := rfl
@[simp] theorem zero_g : (0 : Spectrum).g = 0 := rfl
@[simp] theorem zero_b : (0 : Spectrum).b = 0 := rfl

instance : AddCommMonoid Spectrum where
  add_assoc a b c := by
    show Spectrum.mk _ _ _ = Spectrum.mk _ _ _
    simp [add_assoc]
  zero_add a := by
    show Spectrum.mk _ _ _ = a
    cases a; simp
  add_zero a := by
    show Spectrum.mk _ _ _ = a
    cases a; simp
  add_comm a b := by
    show Spectrum.mk _ _ _ = Spectrum.mk _ _ _
    simp [add_comm]
  nsmul := nsmulRec

/-- A grey (constant) energy value; models assigning a scalar to a
`Spectrum`, as in `ap[0] = f`. -/
def const (c : ℝ) : Spectrum := ⟨c, c, c⟩

/-- Scaling an energy value by a scalar, as in `T * f`. -/
def scale (s : Spectrum) (c : ℝ) : Spectrum := ⟨s.r * c, s.g * c, s.b * c⟩

/-- Componentwise product of energy values. -/
def mul (s t : Spectrum) : Spectrum := ⟨s.r * t.r, s.g * t.g, s.b * t.b⟩

/-- Componentwise quotient of energy values. -/
def div (s t : Spectrum) : Spectrum := ⟨s.r / t.r, s.g / t.g, s.b / t.b⟩

/-- `1.0f - s`, componentwise. -/
def oneSub (s : Spectrum) : Spectrum := ⟨1 - s.r, 1 - s.g, 1 - s.b⟩

/-- `Spectrum::Exp`, the componentwise exponential. -/
def exp (s : Spectrum) : Spectrum := ⟨Real.exp s.r, Real.exp s.g, Real.exp s.b⟩

/-- Modelled from the spec: `GetIntensity`, the scalar "intensity" reduction
of an energy value (the class itself is not part of the provided sources);
a uniform channel average is used. -/
def intensity (s : Spectrum) : ℝ := (s.r + s.g + s.b) / 3

@[simp] theorem const_r (c : ℝ) : (const c).r = c := rfl
@[simp] theorem const_g (c : ℝ) : (const c).g = c := rfl
@[simp] theorem const_b (c : ℝ) : (const c).b = c := rfl
@[simp] theorem scale_r (s : Spectrum) (c : ℝ) : (s.scale c).r = s.r * c := rfl
@[simp] theorem scale_g (s : Spectrum) (c : ℝ) : (s.scale c).g = s.g * c := rfl
@[simp] theorem scale_b (s : Spectrum) (c : ℝ) : (s.scale c).b = s.b * c := rfl
@[simp] theorem mul_r (s t : Spectrum) : (s.mul t).r = s.r * t.r := rfl
@[simp] theorem mul_g (s t : Spectrum) : (s.mul t).g = s.g * t.g := rfl
@[simp] theorem mul_b (s t : Spectrum) : (s.mul t).b = s.b * t.b := rfl
@[simp] theorem div_r (s t : Spectrum) : (s.div t).r = s.r / t.r := rfl
@[simp] theorem div_g (s t : Spectrum) : (s.div t).g = s.g / t.g := rfl
@[simp] theorem div_b (s t : Spectrum) : (s.div t).b = s.b / t.b := rfl
@[simp] theorem oneSub_r (s : Spectrum) : s.oneSub.r = 1 - s.r := rfl
@[simp] theorem oneSub_g (s : Spectrum) : s.oneSub.g = 1 - s.g := rfl
@[simp] theorem oneSub_b (s : Spectrum) : s.oneSub.b = 1 - s.b := rfl
@[simp] theorem exp_r (s : Spectrum) : s.exp.r = Real.exp s.r := rfl
@[simp] theorem exp_g (s : Spectrum) : s.exp.g = Real.exp s.g := rfl
@[simp] theorem exp_b (s : Spectrum) : s.exp.b = Real.exp s.b := rfl

end Spectrum

/-- The local-frame direction type (`Vector3f` in the source). -/
structure Vector3f where
  x : ℝ
  y : ℝ
  z : ℝ

/-- Modelled from the spec: the two-argument arctangent used to extract the
azimuthal angle (the `atan2` of the C library, which is not part of the
provided sources); principal value in `(-π, π]` for nonzero arguments,
0 at the origin. -/
def atan2 (y x : ℝ) : ℝ :=
  if 0 < x then Real.arctan (y / x)
  else if x < 0 then
    (if 0 ≤ y then Real.arctan (y / x) + Real.pi else Real.arctan (y / x) - Real.pi)
  else
    (if 0 < y then Real.pi / 2 else if y < 0 then -(Real.pi / 2) else 0)

/-- Modelled from the spec: the closed-form dielectric Fresnel reflectance
(`DielectricFresnel` lives in fresnel.h, which is not part of the provided
sources).  Standard formulation: clamp the incidence cosine, swap the media
when the ray arrives from inside, return 1 on total internal reflection and
otherwise average the squared parallel/perpendicular amplitudes. -/
def DielectricFresnel (cosThetaI etaI etaT : ℝ) : ℝ :=
  let c0 := clamp cosThetaI (-1) 1
  let ei := if 0 < c0 then etaI else etaT
  let et := if 0 < c0 then etaT else etaI
  let c := |c0|
  let sinThetaI := Real.sqrt (max (1 - SQR c) 0)
  let sinThetaT := ei * sinThetaI / et
  if 1 ≤ sinThetaT then 1
  else
    let cosThetaT := Real.sqrt (max (1 - SQR sinThetaT) 0)
    let Rparl := (et * c - ei * cosThetaT) / (et * c + ei * cosThetaT)
    let Rperp := (ei * c - et * cosThetaT) / (ei * c + et * cosThetaT)
    (SQR Rparl + SQR Rperp) / 2

/-- `Ap` of the source: the per-lobe attenuation energies.  Entry `p` of the
returned map is `ap[p]`; indices above `PMAX` repeat the last entry. -/
def ApVec (cosThetaO eta sinGammaT : ℝ) (T : Spectrum) : ℕ → Spectrum :=
  let cosGammaO := ssqrt (1 - SQR sinGammaT)
  let cosTheta := cosThetaO * cosGammaO
  let f := DielectricFresnel cosTheta 1 eta
  let a0 := Spectrum.const f
  let a1 := T.scale (SQR (1 - f))
  let a2 := (a1.mul T).scale f
  let a3 := ((a2.scale f).mul T).div (Spectrum.oneSub (T.scale f))
  fun p => if p = 0 then a0 else if p = 1 then a1 else if p = 2 then a2 else a3

/-- `I0` of the source: the 10-term power series approximating the modified
Bessel function of the first kind (term `i` is `x^(2i) / (4^i (i!)^2)`). -/
def I0 (x : ℝ) : ℝ :=
  ∑ i ∈ Finset.range 10, x ^ (2 * i) / ((4 : ℝ) ^ i * ((Nat.factorial i : ℝ)) ^ 2)

/-- `LogI0` of the source: logarithm of the Bessel-like series, replaced by
an asymptotic expansion for arguments above 12. -/
def LogI0 (x : ℝ) : ℝ :=
  if 12 < x then x + 0.5 * (-Real.log TWO_PI + Real.log (1 / x) + 1 / (8 * x))
  else Real.log (I0 x)

/-- `Mp` of the source: the longitudinal scattering density. -/
def Mp (cosThetaI cosThetaO sinThetaI sinThetaO v : ℝ) : ℝ :=
  let a := cosThetaI * cosThetaO / v
  let b := sinThetaI * sinThetaO / v
  if v ≤ 0.1 then
    Real.exp (LogI0 a - b - 1 / v + 0.6931 + Real.log (1 / (2 * v)))
  else
    Real.exp (-b) * I0 a / (Real.sinh (1 / v) * 2 * v)

/-- `Phi` of the source: the azimuthal phase offset of lobe `p`. -/
def Phi (p : ℕ) (gammaO gammaT : ℝ) : ℝ :=
  2 * p * gammaT - 2 * gammaO + p * Real.pi

/-- `Logistic` of the source. -/
def Logistic (x scale : ℝ) : ℝ :=
  let x := |x|
  Real.exp (-x / scale) / (scale * SQR (1 + Real.exp (-x / scale)))

/-- `LogisticCDF` of the source. -/
def LogisticCDF (x scale : ℝ) : ℝ := 1 / (1 + Real.exp (-x / scale))

/-- `TrimmedLogistic` of the source. -/
def TrimmedLogistic (x scale a b : ℝ) : ℝ :=
  Logistic x scale / (LogisticCDF b scale - LogisticCDF a scale)

/-- `SampleTrimmedLogistic` of the source. -/
def SampleTrimmedLogistic (r scale a b : ℝ) : ℝ :=
  let k := LogisticCDF b scale - LogisticCDF a scale
  let x := -scale * Real.log (1 / (r * k + LogisticCDF a scale) - 1)
  clamp x a b

/-- The first `while` loop of `Np`: repeatedly subtract `2π` while the value
exceeds `π`. -/
def reduceDown (x : ℝ) : ℝ :=
  if h : Real.pi < x then reduceDown (x - TWO_PI) else x
  termination_by (⌈(x - Real.pi) / (2 * Real.pi)⌉).toNat
  decreasing_by
    have hpi : (0 : ℝ) < Real.pi := Real.pi_pos
    have h2pi : (0 : ℝ) < 2 * Real.pi := by linarith
    have key : (x - TWO_PI - Real.pi) / (2 * Real.pi)
        = (x - Real.pi) / (2 * Real.pi) - 1 := by
      field_simp [TWO_PI]
      ring
    have hpos : 0 < (x - Real.pi) / (2 * Real.pi) := by
      apply div_pos (by linarith) h2pi
    have hce : (1 : ℤ) ≤ ⌈(x - Real.pi) / (2 * Real.pi)⌉ := by
      exact_mod_cast Int.ceil_pos.mpr hpos
    have : ⌈(x - TWO_PI - Real.pi) / (2 * Real.pi)⌉
        = ⌈(x - Real.pi) / (2 * Real.pi)⌉ - 1 := by
      rw [key]
      exact_mod_cast Int.ceil_sub_one _
    omega

/-- The second `while` loop of `Np`: repeatedly add `2π` while the value is
below `-π`. -/
def reduceUp (x : ℝ) : ℝ :=
  if h : x < -Real.pi then reduceUp (x + TWO_PI) else x
  termination_by (⌈(-Real.pi - x) / (2 * Real.pi)⌉).toNat
  decreasing_by
    have hpi : (0 : ℝ) < Real.pi := Real.pi_pos
    have h2pi : (0 : ℝ) < 2 * Real.pi := by linarith
    have key : (-Real.pi - (x + TWO_PI)) / (2 * Real.pi)
        = (-Real.pi - x) / (2 * Real.pi) - 1 := by
      field_simp [TWO_PI]
      ring
    have hpos : 0 < (-Real.pi - x) / (2 * Real.pi) := by
      apply div_pos (by linarith) h2pi
    have hce : (1 : ℤ) ≤ ⌈(-Real.pi - x) / (2 * Real.pi)⌉ := by
      exact_mod_cast Int.ceil_pos.mpr hpos
    have : ⌈(-Real.pi - (x + TWO_PI)) / (2 * Real.pi)⌉
        = ⌈(-Real.pi - x) / (2 * Real.pi)⌉ - 1 := by
      rw [key]
      exact_mod_cast Int.ceil_sub_one _
    omega

/-- The angle reduction performed by the two `while` loops in `Np`. -/
def reduceAngle (x : ℝ) : ℝ := reduceUp (reduceDown x)

/-- `Np` of the source: the azimuthal scattering density of lobe `p`. -/
def Np (phi : ℝ) (p : ℕ) (scale gammaO gammaT : ℝ) : ℝ :=
  TrimmedLogistic (reduceAngle (phi - Phi p gammaO gammaT)) scale (-Real.pi) Real.pi

/-- `ComputeApPdf` of the source: the lobe-selection probabilities. -/
def ComputeApPdf (cosGammaO cosThetaO sinThetaO eta : ℝ) (sigma : Spectrum) :
    ℕ → ℝ :=
  let sinThetaT := sinThetaO / eta
  let cosThetaT := ssqrt (1 - SQR sinThetaT)
  let etap := Real.sqrt (SQR eta - SQR sinThetaO) / cosThetaO
  let sinGammaO := ssqrt (1 - SQR cosGammaO)
  let sinGammaT := sinGammaO / etap
  let cosGammaT := ssqrt (1 - SQR sinGammaT)
  let T := sigma.scale (-2 * cosGammaT / cosThetaT)
  let expT := T.exp
  let ap := ApVec cosThetaO eta sinGammaT expT
  let sumY := ∑ i ∈ Finset.range (PMAX + 1), (ap i).intensity
  fun i => (ap i).intensity / sumY

/-- The hair material parameter block (`Hair`), with its constructed fields
expressed as functions of the constructor arguments. -/
structure Hair where
  sigma : Spectrum
  lRoughness : ℝ
  aRoughness : ℝ
  eta : ℝ

namespace Hair

/-- `m_v[0]` computed by the constructor. -/
def v0 (h : Hair) : ℝ :=
  SQR (0.726 * h.lRoughness + 0.812 * SQR h.lRoughness + 3.7 * h.lRoughness ^ 20)

/-- The variance array `m_v` computed by the constructor
(`m_v[p] = m_v[2]` for `p ≥ 3`). -/
def v (h : Hair) : ℕ → ℝ :=
  fun p => if p = 0 then h.v0 else if p = 1 then 0.25 * h.v0 else 4 * h.v0

/-- The hard-coded cuticle tilt written by the constructor
(`alpha = 2.0f / 180.0f`). -/
def alpha : ℝ := 2 / 180

/-- The tilt sine array `m_sin2kAlpha` computed by the angle-doubling
recurrence in the constructor. -/
def sin2kAlpha (h : Hair) : ℕ → ℝ :=
  fun i =>
    let s0 := Real.sin alpha
    let c0 := ssqrt (1 - SQR s0)
    let s1 := 2 * c0 * s0
    let c1 := SQR c0 - SQR s0
    let s2 := 2 * c1 * s1
    if i = 0 then s0 else if i = 1 then s1 else s2

/-- The tilt cosine array `m_cos2kAlpha` computed by the angle-doubling
recurrence in the constructor. -/
def cos2kAlpha (h : Hair) : ℕ → ℝ :=
  fun i =>
    let s0 := Real.sin alpha
    let c0 := ssqrt (1 - SQR s0)
    let s1 := 2 * c0 * s0
    let c1 := SQR c0 - SQR s0
    let c2 := SQR c1 - SQR s1
    if i = 0 then c0 else if i = 1 then c1 else c2

/-- `m_scale` computed by the constructor (`SqrtPiOver8` is the hard-coded
float literal of the source). -/
def scale (h : Hair) : ℝ :=
  0.626657069 *
    (0.265 * h.aRoughness + 1.194 * SQR h.aRoughness + 5.372 * h.aRoughness ^ 22)

/-- `m_etaSqr` computed by the constructor. -/
def etaSqr (h : Hair) : ℝ := SQR h.eta

/-- The per-lobe cuticle tilt applied to the incoming longitudinal angle
(the common `if (p == 0) ... else ...` block of `f`, `sample_f` and `pdf`);
returns `(sinThetaIp, cosThetaIp)`. -/
def tilt (h : Hair) (p : ℕ) (sinThetaI cosThetaI : ℝ) : ℝ × ℝ :=
  if p = 0 then
    (sinThetaI * h.cos2kAlpha 1 + cosThetaI * h.sin2kAlpha 1,
     cosThetaI * h.cos2kAlpha 1 - sinThetaI * h.sin2kAlpha 1)
  else if p = 1 then
    (sinThetaI * h.cos2kAlpha 0 - cosThetaI * h.sin2kAlpha 0,
     cosThetaI * h.cos2kAlpha 0 + sinThetaI * h.sin2kAlpha 0)
  else if p = 2 then
    (sinThetaI * h.cos2kAlpha 2 - cosThetaI * h.sin2kAlpha 2,
     cosThetaI * h.cos2kAlpha 2 + sinThetaI * h.sin2kAlpha 2)
  else (sinThetaI, cosThetaI)

/-- `Hair::f` of the source: BSDF evaluation. -/
def f (h : Hair) (wo wi : Vector3f) : Spectrum :=
  let sinThetaO := wo.x
  let cosThetaO := ssqrt (1 - SQR sinThetaO)
  let phiO := atan2 wo.y wo.z
  let sinThetaI := wi.x
  let cosThetaI := ssqrt (1 - SQR sinThetaI)
  let phiI := atan2 wi.y wi.z
  let sinThetaT := sinThetaO / h.eta
  let cosThetaT := ssqrt (1 - SQR sinThetaT)
  let etap := Real.sqrt (h.etaSqr - SQR sinThetaO) / cosThetaO
  let cosGammaO := wo.y
  let sinGammaO := ssqrt (1 - SQR cosGammaO)
  let gammaO := Real.arcsin (clamp sinGammaO (-1) 1)
  let sinGammaT := sinGammaO / etap
  let cosGammaT := ssqrt (1 - SQR sinGammaT)
  let gammaT := Real.arcsin (clamp sinGammaT (-1) 1)
  let T := h.sigma.scale (-2 * cosGammaT / cosThetaT)
  let expT := T.exp
  let phi := phiI - phiO
  let ap := ApVec cosThetaO h.eta sinGammaT expT
  (∑ p ∈ Finset.range PMAX,
      (ap p).scale
        (Mp |(h.tilt p sinThetaI cosThetaI).2| cosThetaO
            (h.tilt p sinThetaI cosThetaI).1 sinThetaO (h.v p) *
          Np phi p h.scale gammaO gammaT)) +
    (ap PMAX).scale
      (Mp cosThetaI cosThetaO sinThetaI sinThetaO (h.v PMAX) * INV_TWOPI)

/-- `Hair::pdf` of the source: the independently computable sampling density. -/
def pdf (h : Hair) (wo wi : Vector3f) : ℝ :=
  let sinThetaO := wo.x
  let cosThetaO := ssqrt (1 - SQR sinThetaO)
  let phiO := atan2 wo.y wo.z
  let sinThetaI := wi.x
  let cosThetaI := ssqrt (1 - SQR sinThetaI)
  let phiI := atan2 wi.y wi.z
  let apPdf := ComputeApPdf wo.y cosThetaO sinThetaO h.eta h.sigma
  let sinGammaO := ssqrt (1 - SQR wo.y)
  let gammaO := Real.arcsin (clamp sinGammaO (-1) 1)
  let etap := Real.sqrt (h.etaSqr - SQR sinThetaO) / cosThetaO
  let sinGammaT := sinGammaO / etap
  let gammaT := Real.arcsin (clamp sinGammaT (-1) 1)
  let phi := phiI - phiO
  (∑ p ∈ Finset.range PMAX,
      Mp |(h.tilt p sinThetaI cosThetaI).2| cosThetaO
          (h.tilt p sinThetaI cosThetaI).1 sinThetaO (h.v p) *
        apPdf p * Np phi p h.scale gammaO gammaT) +
    Mp cosThetaI cosThetaO sinThetaI sinThetaO (h.v PMAX) * apPdf PMAX * INV_TWOPI

/-- The linear-scan lobe selection of `Hair::sample_f`
(`for(; p < PMAX; ++p){ if (r < apPdf[p]) break; r -= apPdf[p]; }`),
written with explicit remaining-iteration count. -/
def lobeScan (apPdf : ℕ → ℝ) : ℕ → ℕ → ℝ → ℕ
  | p, 0, _ => p
  | p, fuel + 1, r => if r < apPdf p then p else lobeScan apPdf (p + 1) fuel (r - apPdf p)

/-- The lobe index selected by `Hair::sample_f` from the first uniform draw. -/
def selectLobe (r : ℝ) (apPdf : ℕ → ℝ) : ℕ := lobeScan apPdf 0 PMAX r

/-- `Hair::sample_f` of the source.  The four uniform draws consumed through
`sort_canonical()` are passed as `r1 r2 r3 r4` in call order; the returned
triple is (sampled `wi`, the density written to `*pPdf`, the returned
spectrum `f(wo, wi)`). -/
def sampleF (h : Hair) (wo : Vector3f) (r1 r2 r3 r4 : ℝ) :
    Vector3f × ℝ × Spectrum :=
  let sinThetaO := wo.x
  let cosThetaO := ssqrt (1 - SQR sinThetaO)
  let phiO := atan2 wo.y wo.z
  let apPdf := ComputeApPdf wo.y cosThetaO sinThetaO h.eta h.sigma
  let p := selectLobe r1 apPdf
  let cosTheta := 1 + h.v p * Real.log (r2 + (1 - r2) * Real.exp (-2 / h.v p))
  let sinTheta := ssqrt (1 - SQR cosTheta)
  let cosPhi := Real.cos (TWO_PI * r3)
  let sinThetaI0 := -cosTheta * sinThetaO + sinTheta * cosPhi * cosThetaO
  let cosThetaI0 := ssqrt (1 - SQR sinThetaI0)
  let sinThetaI := (h.tilt p sinThetaI0 cosThetaI0).1
  let cosThetaI := (h.tilt p sinThetaI0 cosThetaI0).2
  let etap := Real.sqrt (h.etaSqr - SQR sinThetaO) / cosThetaO
  let cosGammaO := wo.y
  let sinGammaO := ssqrt (1 - SQR cosGammaO)
  let gammaO := Real.arcsin (clamp sinGammaO (-1) 1)
  let sinGammaT := sinGammaO / etap
  let gammaT := Real.arcsin (clamp sinGammaT (-1) 1)
  let dphi :=
    if p < PMAX then Phi p gammaO gammaT + SampleTrimmedLogistic r4 h.scale (-Real.pi) Real.pi
    else TWO_PI * r4
  let phiI := phiO + dphi
  let wi : Vector3f := ⟨sinThetaI, cosThetaI * Real.sin phiI, cosThetaI * Real.cos phiI⟩
  let pPdf :=
    (∑ q ∈ Finset.range PMAX,
        Mp |(h.tilt q sinThetaI cosThetaI).2| cosThetaO
            (h.tilt q sinThetaI cosThetaI).1 sinThetaO (h.v q) *
          apPdf q * Np dphi q h.scale gammaO gammaT) +
      Mp cosThetaI cosThetaO sinThetaI sinThetaO (h.v PMAX) * apPdf PMAX * INV_TWOPI
  (wi, pPdf, h.f wo wi)

/-- The lobe index chosen by `Hair::sample_f` from the first canonical draw
(the prefix of `sampleF` up to the lobe selection). -/
def sampleP (h : Hair) (wo : Vector3f) (r1 : ℝ) : ℕ :=
  selectLobe r1 (ComputeApPdf wo.y (ssqrt (1 - SQR wo.x)) wo.x h.eta h.sigma)

/-- The pre-tilt incident sine computed by `Hair::sample_f` (the prefix of
`sampleF` up to `sinThetaI`, before the cuticle-tilt rotation). -/
def sampleSinThetaI0 (h : Hair) (wo : Vector3f) (r1 r2 r3 : ℝ) : ℝ :=
  -(1 + h.v (h.sampleP wo r1) *
      Real.log (r2 + (1 - r2) * Real.exp (-2 / h.v (h.sampleP wo r1)))) * wo.x +
    ssqrt (1 - SQR (1 + h.v (h.sampleP wo r1) *
      Real.log (r2 + (1 - r2) * Real.exp (-2 / h.v (h.sampleP wo r1))))) *
      Real.cos (TWO_PI * r3) * ssqrt (1 - SQR wo.x)

/-- The tilt-corrected incident cosine `cosThetaIp` computed by
`Hair::sample_f` (before `abs` is applied to it inside the density loop);
`sample_f` builds the returned direction from this possibly-negative value. -/
def sampleCosThetaIp (h : Hair) (wo : Vector3f) (r1 r2 r3 : ℝ) : ℝ :=
  (h.tilt (h.sampleP wo r1) (h.sampleSinThetaI0 wo r1 r2 r3)
    (ssqrt (1 - SQR (h.sampleSinThetaI0 wo r1 r2 r3)))).2

end Hair

/-! ### Properties of the angle-reduction loops -/

theorem reduceDown_le (x : ℝ) : reduceDown x ≤ Real.pi := by
  rw [reduceDown]
  split_ifs with h
  · exact reduceDown_le (x - TWO_PI)
  · linarith
  termination_by (⌈(x - Real.pi) / (2 * Real.pi)⌉).toNat
  decreasing_by
    have hpi : (0 : ℝ) < Real.pi := Real.pi_pos
    have h2pi : (0 : ℝ) < 2 * Real.pi := by linarith
    have key : (x - TWO_PI - Real.pi) / (2 * Real.pi)
        = (x - Real.pi) / (2 * Real.pi) - 1 := by
      field_simp [TWO_PI]
      ring
    have hpos : 0 < (x - Real.pi) / (2 * Real.pi) := by
      apply div_pos (by linarith) h2pi
    have hce : (1 : ℤ) ≤ ⌈(x - Real.pi) / (2 * Real.pi)⌉ := by
      exact_mod_cast Int.ceil_pos.mpr hpos
    have : ⌈(x - TWO_PI - Real.pi) / (2 * Real.pi)⌉
        = ⌈(x - Real.pi) / (2 * Real.pi)⌉ - 1 := by
      rw [key]
      exact_mod_cast Int.ceil_sub_one _
    omega

theorem reduceDown_modEq (x : ℝ) :
    ∃ k : ℤ, reduceDown x = x + 2 * Real.pi * k := by
  rw [reduceDown]
  split_ifs with h
  · obtain ⟨k, hk⟩ := reduceDown_modEq (x - TWO_PI)
    exact ⟨k - 1, by rw [hk]; push_cast [TWO_PI]; ring⟩
  · exact ⟨0, by push_cast; ring⟩
  termination_by (⌈(x - Real.pi) / (2 * Real.pi)⌉).toNat
  decreasing_by
    have hpi : (0 : ℝ) < Real.pi := Real.pi_pos
    have h2pi : (0 : ℝ) < 2 * Real.pi := by linarith
    have key : (x - TWO_PI - Real.pi) / (2 * Real.pi)
        = (x - Real.pi) / (2 * Real.pi) - 1 := by
      field_simp [TWO_PI]
      ring
    have hpos : 0 < (x - Real.pi) / (2 * Real.pi) := by
      apply div_pos (by linarith) h2pi
    have hce : (1 : ℤ) ≤ ⌈(x - Real.pi) / (2 * Real.pi)⌉ := by
      exact_mod_cast Int.ceil_pos.mpr hpos
    have : ⌈(x - TWO_PI - Real.pi) / (2 * Real.pi)⌉
        = ⌈(x - Real.pi) / (2 * Real.pi)⌉ - 1 := by
      rw [key]
      exact_mod_cast Int.ceil_sub_one _
    omega

theorem reduceDown_of_le {x : ℝ} (h : x ≤ Real.pi) : reduceDown x = x := by
  rw [reduceDown]
  split_ifs with h1
  · linarith
  · rfl

theorem reduceUp_ge (x : ℝ) : -Real.pi ≤ reduceUp x := by
  rw [reduceUp]
  split_ifs with h
  · exact reduceUp_ge (x + TWO_PI)
  · linarith
  termination_by (⌈(-Real.pi - x) / (2 * Real.pi)⌉).toNat
  decreasing_by
    have hpi : (0 : ℝ) < Real.pi := Real.pi_pos
    have h2pi : (0 : ℝ) < 2 * Real.pi := by linarith
    have key : (-Real.pi - (x + TWO_PI)) / (2 * Real.pi)
        = (-Real.pi - x) / (2 * Real.pi) - 1 := by
      field_simp [TWO_PI]
      ring
    have hpos : 0 < (-Real.pi - x) / (2 * Real.pi) := by
      apply div_pos (by linarith) h2pi
    have hce : (1 : ℤ) ≤ ⌈(-Real.pi - x) / (2 * Real.pi)⌉ := by
      exact_mod_cast Int.ceil_pos.mpr hpos
    have : ⌈(-Real.pi - (x + TWO_PI)) / (2 * Real.pi)⌉
        = ⌈(-Real.pi - x) / (2 * Real.pi)⌉ - 1 := by
      rw [key]
      exact_mod_cast Int.ceil_sub_one _
    omega

theorem reduceUp_le {x : ℝ} (hx : x ≤ Real.pi) : reduceUp x ≤ Real.pi := by
  rw [reduceUp]
  split_ifs with h
  · have hpi : (0 : ℝ) < Real.pi := Real.pi_pos
    exact reduceUp_le (x := x + TWO_PI) (by simp only [TWO_PI]; linarith)
  · exact hx
  termination_by (⌈(-Real.pi - x) / (2 * Real.pi)⌉).toNat
  decreasing_by
    have hpi : (0 : ℝ) < Real.pi := Real.pi_pos
    have h2pi : (0 : ℝ) < 2 * Real.pi := by linarith
    have key : (-Real.pi - (x + TWO_PI)) / (2 * Real.pi)
        = (-Real.pi - x) / (2 * Real.pi) - 1 := by
      field_simp [TWO_PI]
      ring
    have hpos : 0 < (-Real.pi - x) / (2 * Real.pi) := by
      apply div_pos (by linarith) h2pi
    have hce : (1 : ℤ) ≤ ⌈(-Real.pi - x) / (2 * Real.pi)⌉ := by
      exact_mod_cast Int.ceil_pos.mpr hpos
    have : ⌈(-Real.pi - (x + TWO_PI)) / (2 * Real.pi)⌉
        = ⌈(-Real.pi - x) / (2 * Real.pi)⌉ - 1 := by
      rw [key]
      exact_mod_cast Int.ceil_sub_one _
    omega

theorem reduceUp_modEq (x : ℝ) :
    ∃ k : ℤ, reduceUp x = x + 2 * Real.pi * k := by
  rw [reduceUp]
  split_ifs with h
  · obtain ⟨k, hk⟩ := reduceUp_modEq (x + TWO_PI)
    exact ⟨k + 1, by rw [hk]; push_cast [TWO_PI]; ring⟩
  · exact ⟨0, by push_cast; ring⟩
  termination_by (⌈(-Real.pi - x) / (2 * Real.pi)⌉).toNat
  decreasing_by
    have hpi : (0 : ℝ) < Real.pi := Real.pi_pos
    have h2pi : (0 : ℝ) < 2 * Real.pi := by linarith
    have key : (-Real.pi - (x + TWO_PI)) / (2 * Real.pi)
        = (-Real.pi - x) / (2 * Real.pi) - 1 := by
      field_simp [TWO_PI]
      ring
    have hpos : 0 < (-Real.pi - x) / (2 * Real.pi) := by
      apply div_pos (by linarith) h2pi
    have hce : (1 : ℤ) ≤ ⌈(-Real.pi - x) / (2 * Real.pi)⌉ := by
      exact_mod_cast Int.ceil_pos.mpr hpos
    have : ⌈(-Real.pi - (x + TWO_PI)) / (2 * Real.pi)⌉
        = ⌈(-Real.pi - x) / (2 * Real.pi)⌉ - 1 := by
      rw [key]
      exact_mod_cast Int.ceil_sub_one _
    omega

theorem reduceUp_of_ge {x : ℝ} (h : -Real.pi ≤ x) : reduceUp x = x := by
  rw [reduceUp]
  split_ifs with h1
  · linarith
  · rfl

theorem reduceAngle_mem (x : ℝ) :
    -Real.pi ≤ reduceAngle x ∧ reduceAngle x ≤ Real.pi :=
  ⟨reduceUp_ge _, reduceUp_le (reduceDown_le x)⟩

theorem reduceAngle_modEq (x : ℝ) :
    ∃ k : ℤ, reduceAngle x = x + 2 * Real.pi * k := by
  obtain ⟨k1, hk1⟩ := reduceDown_modEq x
  obtain ⟨k2, hk2⟩ := reduceUp_modEq (reduceDown x)
  exact ⟨k1 + k2, by rw [reduceAngle, hk2, hk1]; push_cast; ring⟩

theorem reduceAngle_of_mem {x : ℝ} (h1 : -Real.pi ≤ x) (h2 : x ≤ Real.pi) :
    reduceAngle x = x := by
  rw [reduceAngle, reduceDown_of_le h2, reduceUp_of_ge h1]

/-! ### Easy claim groundwork -/

theorem Logistic_neg (x s : ℝ) : Logistic (-x) s = Logistic x s := by
  simp [Logistic]

theorem TrimmedLogistic_neg (x s a b : ℝ) :
    TrimmedLogistic (-x) s a b = TrimmedLogistic x s a b := by
  simp [TrimmedLogistic, Logistic_neg]

/-- C10: the two angle-wrap `while` loops in `Np` terminate (they are
well-founded recursions in this embedding), their result lies in `[-π, π]`
and differs from the input by an integer multiple of `2π`, and `Np` is the
total function obtained by feeding that reduced difference to the trimmed
logistic. -/
theorem claim_C10_angle_reduction_total (phi : ℝ) (p : ℕ) (scale gammaO gammaT : ℝ) :
    -Real.pi ≤ reduceAngle (phi - Phi p gammaO gammaT) ∧
    reduceAngle (phi - Phi p gammaO gammaT) ≤ Real.pi ∧
    (∃ k : ℤ, reduceAngle (phi - Phi p gammaO gammaT)
        = phi - Phi p gammaO gammaT + 2 * Real.pi * k) ∧
    Np phi p scale gammaO gammaT
      = TrimmedLogistic (reduceAngle (phi - Phi p gammaO gammaT)) scale (-Real.pi) Real.pi := by
  refine ⟨(reduceAngle_mem _).1, (reduceAngle_mem _).2, reduceAngle_modEq _, rfl⟩

/-- C6: for lobes `p < PMAX`, the azimuthal density `Np` is the logistic
density with the given scale, centred at the phase offset
`Phi(p) = 2 p γT − 2 γO + p π`, renormalised to `(−π, π]`, evaluated at the
representative of `phi − Phi(p)` modulo `2π` lying in `(−π, π]`. -/
theorem claim_C6_azimuthal_density (phi : ℝ) (p : ℕ) (scale gammaO gammaT : ℝ)
    (hp : p < PMAX) :
    ∃ d : ℝ, (-Real.pi < d ∧ d ≤ Real.pi) ∧
      (∃ k : ℤ, d = phi - (2 * p * gammaT - 2 * gammaO + p * Real.pi) + 2 * Real.pi * k) ∧
      Np phi p scale gammaO gammaT
        = Logistic d scale / (LogisticCDF Real.pi scale - LogisticCDF (-Real.pi) scale) := by
  have hpi : (0 : ℝ) < Real.pi := Real.pi_pos
  have hmem := reduceAngle_mem (phi - Phi p gammaO gammaT)
  obtain ⟨k, hk⟩ := reduceAngle_modEq (phi - Phi p gammaO gammaT)
  have hPhi : Phi p gammaO gammaT
      = 2 * (p : ℝ) * gammaT - 2 * gammaO + (p : ℝ) * Real.pi := rfl
  by_cases hb : reduceAngle (phi - Phi p gammaO gammaT) = -Real.pi
  · refine ⟨Real.pi, ⟨by linarith, le_refl _⟩, ⟨k + 1, ?_⟩, ?_⟩
    · have hxk : -Real.pi = phi - Phi p gammaO gammaT + 2 * Real.pi * (k : ℝ) := by
        rw [← hb, hk]
      rw [← hPhi]
      push_cast
      linarith [hxk]
    · show TrimmedLogistic (reduceAngle (phi - Phi p gammaO gammaT))
          scale (-Real.pi) Real.pi = _
      rw [hb, ← TrimmedLogistic_neg, neg_neg, TrimmedLogistic]
  · refine ⟨reduceAngle (phi - Phi p gammaO gammaT),
      ⟨lt_of_le_of_ne hmem.1 (Ne.symm hb), hmem.2⟩, ⟨k, ?_⟩, rfl⟩
    rw [← hPhi]
    exact hk

/-- C7: branch structure of the longitudinal density `Mp`: the direct
series evaluation for `v > 0.1`, and for `v ≤ 0.1` the log-domain
formulation, which takes the log of the series for arguments ≤ 12 and an
asymptotic expansion for arguments > 12 before exponentiating the combined
exponent. -/
theorem claim_C7_Mp_branches (cI cO sI sO v : ℝ) :
    (0.1 < v →
      Mp cI cO sI sO v
        = Real.exp (-(sI * sO / v)) * I0 (cI * cO / v) / (Real.sinh (1 / v) * 2 * v)) ∧
    (v ≤ 0.1 → cI * cO / v ≤ 12 →
      Mp cI cO sI sO v
        = Real.exp (Real.log (I0 (cI * cO / v)) - sI * sO / v - 1 / v + 0.6931
            + Real.log (1 / (2 * v)))) ∧
    (v ≤ 0.1 → 12 < cI * cO / v →
      Mp cI cO sI sO v
        = Real.exp (cI * cO / v
            + 0.5 * (-Real.log (2 * Real.pi) + Real.log (1 / (cI * cO / v))
                + 1 / (8 * (cI * cO / v)))
            - sI * sO / v - 1 / v + 0.6931 + Real.log (1 / (2 * v)))) := by
  refine ⟨fun hv => ?_, fun hv ha => ?_, fun hv ha => ?_⟩
  · rw [Mp]
    simp only [if_neg (not_le.mpr hv)]
  · rw [Mp]
    simp only [if_pos hv, LogI0, if_neg (not_lt.mpr ha)]
  · rw [Mp]
    simp only [if_pos hv, LogI0, if_pos ha, TWO_PI]

/-- Witness for C7: each of the three branches is realised at a concrete
input (`v = 1`; `v = 1/20` with series argument `10 ≤ 12`; `v = 1/20` with
asymptotic argument `20 > 12`). -/
theorem claim_C7_Mp_branches_witness :
    (Mp 1 1 0 0 1
        = Real.exp (-(0 * 0 / 1)) * I0 (1 * 1 / 1) / (Real.sinh (1 / 1) * 2 * 1)) ∧
    (Mp (1/2) 1 0 0 (1/20)
        = Real.exp (Real.log (I0 ((1/2) * 1 / (1/20))) - 0 * 0 / (1/20) - 1 / (1/20) + 0.6931
            + Real.log (1 / (2 * (1/20))))) ∧
    (Mp 1 1 0 0 (1/20)
        = Real.exp (1 * 1 / (1/20)
            + 0.5 * (-Real.log (2 * Real.pi) + Real.log (1 / (1 * 1 / (1/20)))
                + 1 / (8 * (1 * 1 / (1/20))))
            - 0 * 0 / (1/20) - 1 / (1/20) + 0.6931 + Real.log (1 / (2 * (1/20))))) :=
  ⟨(claim_C7_Mp_branches 1 1 0 0 1).1 (by norm_num),
   (claim_C7_Mp_branches (1/2) 1 0 0 (1/20)).2.1 (by norm_num) (by norm_num),
   (claim_C7_Mp_branches 1 1 0 0 (1/20)).2.2 (by norm_num) (by norm_num)⟩

/-- C8: the linear-scan lobe selection always terminates with an index in
`{0, …, PMAX}` (so indexing the variance array `m_v[p]` stays in bounds),
and whenever the draw is at least the cumulative mass of lobes
`0..PMAX−1`, the residual mass lands on the last lobe `PMAX`. -/
theorem claim_C8_lobe_scan (r : ℝ) (h0 : 0 ≤ r) (h1 : r < 1) (apPdf : ℕ → ℝ)
    (hnn : ∀ i, 0 ≤ apPdf i) :
    Hair.selectLobe r apPdf ≤ PMAX ∧
    (apPdf 0 + apPdf 1 + apPdf 2 ≤ r → Hair.selectLobe r apPdf = PMAX) := by
  have e0 := hnn 0
  have e1 := hnn 1
  have e2 := hnn 2
  constructor
  · simp only [Hair.selectLobe, PMAX, Hair.lobeScan]
    split_ifs <;> omega
  · intro hsum
    simp only [Hair.selectLobe, PMAX, Hair.lobeScan]
    have n0 : ¬ r < apPdf 0 := by push_neg; linarith
    have n1 : ¬ r - apPdf 0 < apPdf 1 := by push_neg; linarith
    have n2 : ¬ r - apPdf 0 - apPdf 1 < apPdf 2 := by push_neg; linarith
    rw [if_neg n0, if_neg n1, if_neg n2]

/-- Witness for C8 at a concrete draw and partition; the last lobe absorbs
the residual mass. -/
theorem claim_C8_lobe_scan_witness :
    Hair.selectLobe (1/2) (fun _ => 1/6) ≤ PMAX ∧ Hair.selectLobe (1/2) (fun _ => 1/6) = PMAX :=
  ⟨(claim_C8_lobe_scan (1/2) (by norm_num) (by norm_num) (fun _ => 1/6)
      (fun _ => by norm_num)).1,
   (claim_C8_lobe_scan (1/2) (by norm_num) (by norm_num) (fun _ => 1/6)
      (fun _ => by norm_num)).2 (by norm_num)⟩

/-- Angle-doubling preserves the Pythagorean identity. -/
theorem sincos_double {s c : ℝ} (h : s * s + c * c = 1) :
    (2 * c * s) * (2 * c * s) + (c * c - s * s) * (c * c - s * s) = 1 := by
  linear_combination (s * s + c * c + 1) * h

/-- C9: for strictly positive longitudinal roughness the constructed
variance array `m_v` is entrywise strictly positive, and the three cuticle
tilt sine/cosine pairs produced by the angle-doubling recurrence satisfy
`sin² + cos² = 1` (exactly, in the real-number model). -/
theorem claim_C9_constructor_invariants (h : Hair) (hl : 0 < h.lRoughness) :
    (∀ p, 0 < h.v p) ∧
    (∀ i < PMAX, SQR (h.sin2kAlpha i) + SQR (h.cos2kAlpha i) = 1) := by
  constructor
  · have hv0 : 0 < h.v0 := by
      have hsum : 0 < 0.726 * h.lRoughness + 0.812 * SQR h.lRoughness
          + 3.7 * h.lRoughness ^ 20 := by
        have h2 : 0 < SQR h.lRoughness := mul_pos hl hl
        have h20 : 0 < h.lRoughness ^ 20 := pow_pos hl 20
        nlinarith
      exact mul_pos hsum hsum
    intro p
    unfold Hair.v
    split_ifs
    · exact hv0
    · linarith
    · linarith
  · have h1 := Real.neg_one_le_sin Hair.alpha
    have h2 := Real.sin_le_one Hair.alpha
    have hnn : (0 : ℝ) ≤ 1 - Real.sin Hair.alpha * Real.sin Hair.alpha := by
      nlinarith
    have hssq : ssqrt (1 - Real.sin Hair.alpha * Real.sin Hair.alpha) *
        ssqrt (1 - Real.sin Hair.alpha * Real.sin Hair.alpha)
        = 1 - Real.sin Hair.alpha * Real.sin Hair.alpha := by
      rw [ssqrt, max_eq_left hnn]
      exact Real.mul_self_sqrt hnn
    have hsum : Real.sin Hair.alpha * Real.sin Hair.alpha +
        ssqrt (1 - Real.sin Hair.alpha * Real.sin Hair.alpha) *
          ssqrt (1 - Real.sin Hair.alpha * Real.sin Hair.alpha) = 1 := by
      linarith
    intro i hi
    have hi3 : i < 3 := hi
    interval_cases i
    · simp only [Hair.sin2kAlpha, Hair.cos2kAlpha, SQR, reduceIte]
      exact hsum
    · simp only [Hair.sin2kAlpha, Hair.cos2kAlpha, SQR, reduceIte]
      exact sincos_double hsum
    · simp only [Hair.sin2kAlpha, Hair.cos2kAlpha, SQR, reduceIte]
      exact sincos_double (sincos_double hsum)

/-- Witness for C9 at a concrete parameter block with roughness 1. -/
theorem claim_C9_constructor_invariants_witness :
    0 < (Hair.mk ⟨0, 0, 0⟩ 1 1 (1.55 : ℝ)).v 0 ∧
    SQR ((Hair.mk ⟨0, 0, 0⟩ 1 1 (1.55 : ℝ)).sin2kAlpha 0)
      + SQR ((Hair.mk ⟨0, 0, 0⟩ 1 1 (1.55 : ℝ)).cos2kAlpha 0) = 1 :=
  ⟨(claim_C9_constructor_invariants _ (by norm_num)).1 0,
   (claim_C9_constructor_invariants _ (by norm_num)).2 0 (by decide)⟩

/-! ### Dielectric Fresnel bounds -/

theorem avg_mul_self_nonneg (x y : ℝ) : 0 ≤ (x * x + y * y) / 2 := by
  have hx := mul_self_nonneg x
  have hy := mul_self_nonneg y
  linarith

theorem DielectricFresnel_nonneg (c ei et : ℝ) : 0 ≤ DielectricFresnel c ei et := by
  rw [DielectricFresnel]
  simp only [SQR]
  split_ifs <;> first | exact avg_mul_self_nonneg _ _ | norm_num

theorem ratio_mul_self_le_one {a b : ℝ} (ha : 0 ≤ a) (hb : 0 ≤ b) :
    (a - b) / (a + b) * ((a - b) / (a + b)) ≤ 1 := by
  rcases eq_or_lt_of_le (add_nonneg ha hb) with h | h
  · rw [← h, div_zero]
    norm_num
  · rw [div_mul_div_comm, div_le_one (by nlinarith)]
    nlinarith [mul_nonneg ha hb]

theorem avg_le_one {x y : ℝ} (hx : x ≤ 1) (hy : y ≤ 1) : (x + y) / 2 ≤ 1 := by linarith

theorem DielectricFresnel_le_one {c ei et : ℝ} (hei : 0 ≤ ei) (het : 0 ≤ et) :
    DielectricFresnel c ei et ≤ 1 := by
  rw [DielectricFresnel]
  simp only [SQR]
  split_ifs <;>
    first
      | exact le_refl 1
      | (refine avg_le_one (ratio_mul_self_le_one ?_ ?_) (ratio_mul_self_le_one ?_ ?_) <;>
          first
            | exact mul_nonneg hei (abs_nonneg _)
            | exact mul_nonneg het (abs_nonneg _)
            | exact mul_nonneg hei (Real.sqrt_nonneg _)
            | exact mul_nonneg het (Real.sqrt_nonneg _))

theorem DielectricFresnel_pos {x eta : ℝ} (heta : 1 < eta) :
    0 < DielectricFresnel x 1 eta := by
  have heta0 : (0 : ℝ) < eta := by linarith
  rw [DielectricFresnel]
  simp only [SQR]
  set C := clamp x (-1) 1 with hCdef
  have hCle : C ≤ 1 := min_le_right _ _
  have hCge : -1 ≤ C := le_min (le_max_right _ _) (by norm_num)
  set A := |C| with hAdef
  have hA0 : 0 ≤ A := abs_nonneg _
  have hAA : A * A = C * C := abs_mul_abs_self C
  have hAle : A * A ≤ 1 := by nlinarith
  have hmaxS : max (1 - A * A) 0 = 1 - A * A := max_eq_left (by linarith)
  set S := Real.sqrt (max (1 - A * A) 0) with hSdef
  have hS0 : 0 ≤ S := Real.sqrt_nonneg _
  have hS2 : S * S = 1 - A * A := by
    rw [hSdef, hmaxS]
    exact Real.mul_self_sqrt (by linarith)
  have hSle : S ≤ 1 := by nlinarith
  by_cases hpos : 0 < C
  · simp only [if_pos hpos, one_mul, mul_one]
    have hTIR : ¬ 1 ≤ S / eta := by
      push_neg
      rw [div_lt_one heta0]
      linarith
    rw [if_neg hTIR]
    have hq : S / eta * (S / eta) < 1 := by
      have h1 : S / eta < 1 := by rw [div_lt_one heta0]; linarith
      have h2 : 0 ≤ S / eta := div_nonneg hS0 (le_of_lt heta0)
      nlinarith
    have hmaxT : max (1 - S / eta * (S / eta)) 0 = 1 - S / eta * (S / eta) :=
      max_eq_left (by linarith)
    set T := Real.sqrt (max (1 - S / eta * (S / eta)) 0) with hTdef
    have hT2 : T * T = 1 - S / eta * (S / eta) := by
      rw [hTdef, hmaxT]
      exact Real.mul_self_sqrt (by linarith)
    have hT0 : 0 < T := by
      rw [hTdef, hmaxT]
      exact Real.sqrt_pos.mpr (by linarith)
    have hApos : 0 < A := by rw [hAdef]; exact abs_pos.mpr (ne_of_gt hpos)
    have hden : 0 < A + eta * T := by positivity
    have hne : A - eta * T ≠ 0 := by
      intro hcontra
      have e1 : A * A = (eta * eta) * (T * T) := by
        linear_combination (A + eta * T) * hcontra
      have e2 : (eta * eta) * (T * T) = eta * eta - S * S := by
        rw [hT2]
        field_simp
      nlinarith [e1, e2, hS2, mul_pos (sub_pos.mpr heta) (by linarith : (0:ℝ) < eta + 1)]
    have hperp : 0 < (A - eta * T) / (A + eta * T) * ((A - eta * T) / (A + eta * T)) :=
      mul_self_pos.mpr (div_ne_zero hne (ne_of_gt hden))
    have hparl := mul_self_nonneg ((eta * A - T) / (eta * A + T))
    linarith
  · simp only [if_neg hpos, one_mul, mul_one, div_one]
    split_ifs with hTIR
    · norm_num
    · push_neg at hTIR
      have hq : eta * S * (eta * S) < 1 := by
        have h2 : 0 ≤ eta * S := mul_nonneg (le_of_lt heta0) hS0
        nlinarith
      have hmaxT : max (1 - eta * S * (eta * S)) 0 = 1 - eta * S * (eta * S) :=
        max_eq_left (by linarith)
      set T := Real.sqrt (max (1 - eta * S * (eta * S)) 0) with hTdef
      have hT2 : T * T = 1 - eta * S * (eta * S) := by
        rw [hTdef, hmaxT]
        exact Real.mul_self_sqrt (by linarith)
      have hT0 : 0 < T := by
        rw [hTdef, hmaxT]
        exact Real.sqrt_pos.mpr (by linarith)
      have hden : 0 < eta * A + T := by positivity
      have hne : eta * A - T ≠ 0 := by
        intro hcontra
        have e1 : (eta * eta) * (A * A) = T * T := by
          linear_combination (eta * A + T) * hcontra
        nlinarith [e1, hT2, hS2, mul_pos (sub_pos.mpr heta) (by linarith : (0:ℝ) < eta + 1)]
      have hperp : 0 < (eta * A - T) / (eta * A + T) * ((eta * A - T) / (eta * A + T)) :=
        mul_self_pos.mpr (div_ne_zero hne (ne_of_gt hden))
      have hparl := mul_self_nonneg ((A - eta * T) / (A + eta * T))
      linarith

theorem ssqrt_nonneg (x : ℝ) : 0 ≤ ssqrt x := Real.sqrt_nonneg _

theorem DielectricFresnel_at_zero {eta : ℝ} (h : 1 < eta) :
    DielectricFresnel 0 1 eta = 1 := by
  have hc : clamp 0 (-1) 1 = 0 := by
    simp [clamp]
  rw [DielectricFresnel]
  simp only [hc, lt_irrefl, if_false, abs_zero, SQR, mul_zero, sub_zero, zero_mul,
    max_eq_left (zero_le_one), Real.sqrt_one, mul_one, div_one]
  rw [if_pos (by linarith)]

theorem DielectricFresnel_at_one {eta : ℝ} (h : 1 < eta) :
    DielectricFresnel 1 1 eta = SQR ((eta - 1) / (eta + 1)) := by
  have hc : clamp 1 (-1) 1 = 1 := by simp [clamp]
  rw [DielectricFresnel]
  simp only [hc, zero_lt_one, if_true, abs_one, SQR, mul_one, one_mul, sub_self,
    max_self, Real.sqrt_zero, zero_div, max_eq_left (zero_le_one), Real.sqrt_one, div_one]
  rw [if_neg (by norm_num)]
  have h1 : (0:ℝ) < eta + 1 := by linarith
  norm_num [Real.sqrt_one]
  field_simp
  ring

/-! ### Evaluation of the attenuation array -/

theorem ApVec_zero (cosThetaO eta sinGammaT : ℝ) (T : Spectrum) :
    ApVec cosThetaO eta sinGammaT T 0
      = Spectrum.const (DielectricFresnel (cosThetaO * ssqrt (1 - SQR sinGammaT)) 1 eta) := rfl

theorem ApVec_one_eq (cosThetaO eta sinGammaT : ℝ) (T : Spectrum) :
    ApVec cosThetaO eta sinGammaT T 1
      = T.scale (SQR (1 - DielectricFresnel (cosThetaO * ssqrt (1 - SQR sinGammaT)) 1 eta)) := rfl

theorem ApVec_two (cosThetaO eta sinGammaT : ℝ) (T : Spectrum) :
    ApVec cosThetaO eta sinGammaT T 2
      = ((ApVec cosThetaO eta sinGammaT T 1).mul T).scale
          (DielectricFresnel (cosThetaO * ssqrt (1 - SQR sinGammaT)) 1 eta) := rfl

theorem ApVec_three (cosThetaO eta sinGammaT : ℝ) (T : Spectrum) :
    ApVec cosThetaO eta sinGammaT T 3
      = (((ApVec cosThetaO eta sinGammaT T 2).scale
            (DielectricFresnel (cosThetaO * ssqrt (1 - SQR sinGammaT)) 1 eta)).mul T).div
          (Spectrum.oneSub
            (T.scale (DielectricFresnel (cosThetaO * ssqrt (1 - SQR sinGammaT)) 1 eta))) := rfl

theorem lobe1_nonneg {tc f : ℝ} (h0 : 0 ≤ tc) : 0 ≤ tc * ((1 - f) * (1 - f)) :=
  mul_nonneg h0 (mul_self_nonneg _)

theorem lobe2_nonneg {tc f : ℝ} (h0 : 0 ≤ tc) (hf : 0 ≤ f) :
    0 ≤ tc * ((1 - f) * (1 - f)) * tc * f :=
  mul_nonneg (mul_nonneg (lobe1_nonneg h0) h0) hf

theorem lobe3_nonneg {tc f : ℝ} (h0 : 0 ≤ tc) (h1 : tc ≤ 1) (hf : 0 ≤ f) (hf1 : f ≤ 1) :
    0 ≤ tc * ((1 - f) * (1 - f)) * tc * f * f * tc / (1 - tc * f) := by
  have hden : 0 ≤ 1 - tc * f := by nlinarith
  exact div_nonneg (mul_nonneg (mul_nonneg (lobe2_nonneg h0 hf) hf) h0) hden

theorem ApVec_comp_nonneg (cosThetaO eta sinGammaT : ℝ) (T : Spectrum) (heta : 1 < eta)
    (hTr0 : 0 ≤ T.r) (hTr1 : T.r ≤ 1) (hTg0 : 0 ≤ T.g) (hTg1 : T.g ≤ 1)
    (hTb0 : 0 ≤ T.b) (hTb1 : T.b ≤ 1) :
    ∀ j, 0 ≤ (ApVec cosThetaO eta sinGammaT T j).r ∧
      0 ≤ (ApVec cosThetaO eta sinGammaT T j).g ∧
      0 ≤ (ApVec cosThetaO eta sinGammaT T j).b := by
  set f := DielectricFresnel (cosThetaO * ssqrt (1 - SQR sinGammaT)) 1 eta with hfdef
  have hf0 : 0 < f := DielectricFresnel_pos heta
  have hf1 : f ≤ 1 := DielectricFresnel_le_one (by norm_num) (by linarith)
  intro j
  rcases j with _ | _ | _ | j
  · rw [ApVec_zero, ← hfdef]
    exact ⟨le_of_lt hf0, le_of_lt hf0, le_of_lt hf0⟩
  · rw [ApVec_one_eq, ← hfdef]
    refine ⟨?_, ?_, ?_⟩ <;> simp only [Spectrum.scale_r, Spectrum.scale_g,
      Spectrum.scale_b, SQR]
    · exact lobe1_nonneg hTr0
    · exact lobe1_nonneg hTg0
    · exact lobe1_nonneg hTb0
  · rw [ApVec_two, ApVec_one_eq, ← hfdef]
    refine ⟨?_, ?_, ?_⟩ <;> simp only [Spectrum.scale_r, Spectrum.scale_g,
      Spectrum.scale_b, Spectrum.mul_r, Spectrum.mul_g, Spectrum.mul_b, SQR]
    · exact lobe2_nonneg hTr0 (le_of_lt hf0)
    · exact lobe2_nonneg hTg0 (le_of_lt hf0)
    · exact lobe2_nonneg hTb0 (le_of_lt hf0)
  · have he : ApVec cosThetaO eta sinGammaT T (j + 3)
        = ApVec cosThetaO eta sinGammaT T 3 := rfl
    rw [he, ApVec_three, ApVec_two, ApVec_one_eq, ← hfdef]
    refine ⟨?_, ?_, ?_⟩ <;> simp only [Spectrum.scale_r, Spectrum.scale_g,
      Spectrum.scale_b, Spectrum.mul_r, Spectrum.mul_g, Spectrum.mul_b,
      Spectrum.div_r, Spectrum.div_g, Spectrum.div_b,
      Spectrum.oneSub_r, Spectrum.oneSub_g, Spectrum.oneSub_b, SQR]
    · exact lobe3_nonneg hTr0 hTr1 (le_of_lt hf0) hf1
    · exact lobe3_nonneg hTg0 hTg1 (le_of_lt hf0) hf1
    · exact lobe3_nonneg hTb0 hTb1 (le_of_lt hf0) hf1

theorem apPdf_core (cosThetaO eta sinGammaT : ℝ) (T : Spectrum) (heta : 1 < eta)
    (hTr0 : 0 < T.r) (hTr1 : T.r ≤ 1) (hTg0 : 0 < T.g) (hTg1 : T.g ≤ 1)
    (hTb0 : 0 < T.b) (hTb1 : T.b ≤ 1) :
    (∀ i ≤ PMAX, 0 ≤ (ApVec cosThetaO eta sinGammaT T i).intensity /
        (∑ j ∈ Finset.range (PMAX + 1), (ApVec cosThetaO eta sinGammaT T j).intensity)) ∧
    (∑ i ∈ Finset.range (PMAX + 1), (ApVec cosThetaO eta sinGammaT T i).intensity /
        (∑ j ∈ Finset.range (PMAX + 1), (ApVec cosThetaO eta sinGammaT T j).intensity)) = 1 := by
  set f := DielectricFresnel (cosThetaO * ssqrt (1 - SQR sinGammaT)) 1 eta with hfdef
  have hf0 : 0 < f := DielectricFresnel_pos heta
  have hf1 : f ≤ 1 := DielectricFresnel_le_one (by norm_num) (by linarith)
  have i0 : (ApVec cosThetaO eta sinGammaT T 0).intensity = f := by
    rw [ApVec_zero, ← hfdef]
    show (f + f + f) / 3 = f
    ring
  have inn : ∀ i, 0 ≤ (ApVec cosThetaO eta sinGammaT T i).intensity := by
    intro i
    obtain ⟨h3, h4, h5⟩ := ApVec_comp_nonneg cosThetaO eta sinGammaT T heta
      (le_of_lt hTr0) hTr1 (le_of_lt hTg0) hTg1 (le_of_lt hTb0) hTb1 i
    rw [Spectrum.intensity]
    linarith
  have hSpos : 0 < ∑ j ∈ Finset.range (PMAX + 1),
      (ApVec cosThetaO eta sinGammaT T j).intensity := by
    rw [show PMAX + 1 = 4 from rfl, Finset.sum_range_succ, Finset.sum_range_succ,
      Finset.sum_range_succ, Finset.sum_range_one]
    have g1 := inn 1
    have g2 := inn 2
    have g3 := inn 3
    rw [i0] at *
    linarith
  constructor
  · intro i _
    exact div_nonneg (inn i) (le_of_lt hSpos)
  · rw [← Finset.sum_div, div_self (ne_of_gt hSpos)]

theorem exp_absorb_le_one {c g t : ℝ} (hc : 0 ≤ c) (hg : 0 ≤ g) (ht : 0 ≤ t) :
    Real.exp (c * (-2 * g / t)) ≤ 1 := by
  have h1 : -2 * g / t ≤ 0 := div_nonpos_iff.mpr (Or.inr ⟨by linarith, ht⟩)
  have h2 := mul_nonneg hc (neg_nonneg.mpr h1)
  calc Real.exp (c * (-2 * g / t)) ≤ Real.exp 0 := Real.exp_le_exp.mpr (by nlinarith)
    _ = 1 := Real.exp_zero

theorem ComputeApPdf_props (cosGammaO cosThetaO sinThetaO eta : ℝ)
    (sigma : Spectrum) (heta : 1 < eta)
    (hsr : 0 ≤ sigma.r) (hsg : 0 ≤ sigma.g) (hsb : 0 ≤ sigma.b) :
    (∀ i ≤ PMAX, 0 ≤ ComputeApPdf cosGammaO cosThetaO sinThetaO eta sigma i) ∧
    ∑ i ∈ Finset.range (PMAX + 1),
        ComputeApPdf cosGammaO cosThetaO sinThetaO eta sigma i = 1 := by
  simp only [ComputeApPdf]
  refine apPdf_core _ _ _ _ heta ?_ ?_ ?_ ?_ ?_ ?_ <;>
    simp only [Spectrum.exp_r, Spectrum.exp_g, Spectrum.exp_b,
      Spectrum.scale_r, Spectrum.scale_g, Spectrum.scale_b] <;>
    first
      | exact Real.exp_pos _
      | exact exp_absorb_le_one hsr (ssqrt_nonneg _) (ssqrt_nonneg _)
      | exact exp_absorb_le_one hsg (ssqrt_nonneg _) (ssqrt_nonneg _)
      | exact exp_absorb_le_one hsb (ssqrt_nonneg _) (ssqrt_nonneg _)

/-- C4 as stated is false at a concrete input: with `cosThetaO = 1`,
`eta = 3`, `sinGammaT = 0` and transmittance `T = (1/2,1/2,1/2)`, the
Fresnel term is `f = 1/4`, the code computes lobe 1 as `T·(1−f)² = 9/32`
per channel, while the claimed "transmittance-squared times
one-minus-Fresnel" is `T²·(1−f) = 3/16`. -/
theorem claim_C4_counterexample :
    ¬ (ApVec 1 3 0 (Spectrum.const (1/2)) 1
        = ((Spectrum.const (1/2)).mul (Spectrum.const (1/2))).scale
            (1 - DielectricFresnel (1 * ssqrt (1 - SQR 0)) 1 3)) := by
  intro hcontra
  have hs1 : ssqrt (1 - SQR 0) = 1 := by
    simp [ssqrt, SQR]
  have h1 : DielectricFresnel (1 * ssqrt (1 - SQR 0)) 1 3 = 1/4 := by
    rw [hs1, mul_one, DielectricFresnel_at_one (by norm_num), SQR]
    norm_num
  have hr := congrArg Spectrum.r hcontra
  rw [ApVec_one_eq, h1] at hr
  simp only [Spectrum.scale_r, Spectrum.mul_r, Spectrum.const_r, SQR] at hr
  norm_num at hr

/-- C4 (amended): the attenuation chain computed by `Ap`: lobe 0 is the
dielectric Fresnel reflectance `f`; lobe 1 is the transmittance times the
square of one-minus-Fresnel; each lobe `p ∈ 2..PMAX−1` is the previous lobe
times transmittance times Fresnel; lobe PMAX is the previous lobe times
Fresnel times transmittance divided by `1 − transmittance·Fresnel`. -/
theorem claim_C4_ap_chain_amended (cosThetaO eta sinGammaT : ℝ) (T : Spectrum) :
    ApVec cosThetaO eta sinGammaT T 0
        = Spectrum.const (DielectricFresnel (cosThetaO * ssqrt (1 - SQR sinGammaT)) 1 eta) ∧
    ApVec cosThetaO eta sinGammaT T 1
        = T.scale (SQR (1 - DielectricFresnel (cosThetaO * ssqrt (1 - SQR sinGammaT)) 1 eta)) ∧
    (∀ p, 2 ≤ p → p < PMAX →
      ApVec cosThetaO eta sinGammaT T p
        = ((ApVec cosThetaO eta sinGammaT T (p - 1)).mul T).scale
            (DielectricFresnel (cosThetaO * ssqrt (1 - SQR sinGammaT)) 1 eta)) ∧
    ApVec cosThetaO eta sinGammaT T PMAX
        = (((ApVec cosThetaO eta sinGammaT T (PMAX - 1)).scale
              (DielectricFresnel (cosThetaO * ssqrt (1 - SQR sinGammaT)) 1 eta)).mul T).div
            (Spectrum.oneSub
              (T.scale (DielectricFresnel (cosThetaO * ssqrt (1 - SQR sinGammaT)) 1 eta))) := by
  refine ⟨ApVec_zero _ _ _ _, ApVec_one_eq _ _ _ _, ?_, ApVec_three _ _ _ _⟩
  intro p h2 h3
  have h3' : p < 3 := h3
  interval_cases p
  exact ApVec_two _ _ _ _

/-- Witness for C4 (amended) at a concrete lobe index. -/
theorem claim_C4_ap_chain_amended_witness :
    ApVec 1 2 0 (Spectrum.const 1) 2
      = ((ApVec 1 2 0 (Spectrum.const 1) 1).mul (Spectrum.const 1)).scale
          (DielectricFresnel (1 * ssqrt (1 - SQR 0)) 1 2) :=
  (claim_C4_ap_chain_amended 1 2 0 (Spectrum.const 1)).2.2.1 2 (by norm_num) (by decide)

/-- Witness for C6 at a concrete input. -/
theorem claim_C6_azimuthal_density_witness :
    ∃ d : ℝ, (-Real.pi < d ∧ d ≤ Real.pi) ∧
      (∃ k : ℤ, d = 0 - (2 * (0:ℕ) * 0 - 2 * 0 + (0:ℕ) * Real.pi) + 2 * Real.pi * k) ∧
      Np 0 0 1 0 0
        = Logistic d 1 / (LogisticCDF Real.pi 1 - LogisticCDF (-Real.pi) 1) :=
  claim_C6_azimuthal_density 0 0 1 0 0 (by decide)

/-! ### Non-negativity of the density atoms -/

theorem I0_nonneg (x : ℝ) : 0 ≤ I0 x := by
  apply Finset.sum_nonneg
  intro i _
  apply div_nonneg
  · rw [pow_mul]
    exact pow_nonneg (sq_nonneg x) i
  · positivity

theorem Mp_nonneg (cI cO sI sO v : ℝ) : 0 ≤ Mp cI cO sI sO v := by
  rw [Mp]
  split_ifs with hv
  · exact le_of_lt (Real.exp_pos _)
  · push_neg at hv
    have hv0 : 0 < v := by linarith
    have hs : 0 < Real.sinh (1 / v) := Real.sinh_pos_iff.mpr (by positivity)
    exact div_nonneg (mul_nonneg (le_of_lt (Real.exp_pos _)) (I0_nonneg _))
      (mul_nonneg (mul_nonneg hs.le (by norm_num)) hv0.le)

theorem Logistic_pos {s : ℝ} (hs : 0 < s) (x : ℝ) : 0 < Logistic x s := by
  rw [Logistic]
  apply div_pos (Real.exp_pos _)
  apply mul_pos hs
  have h := Real.exp_pos (-|x| / s)
  rw [SQR]
  nlinarith

theorem trimmedDenom_pos {s : ℝ} (hs : 0 < s) :
    0 < LogisticCDF Real.pi s - LogisticCDF (-Real.pi) s := by
  rw [LogisticCDF, LogisticCDF]
  have hpi := Real.pi_pos
  have hps : 0 < Real.pi / s := div_pos hpi hs
  have h1 : Real.exp (-Real.pi / s) < Real.exp (-(-Real.pi) / s) := by
    apply Real.exp_lt_exp.mpr
    rw [neg_neg, neg_div]
    linarith
  have e1 : 0 < 1 + Real.exp (-Real.pi / s) := by positivity
  rw [sub_pos]
  exact one_div_lt_one_div_of_lt e1 (by linarith)

theorem LogisticCDF_nonneg (x s : ℝ) : 0 ≤ LogisticCDF x s := by
  rw [LogisticCDF]
  positivity

theorem LogisticCDF_le_one (x s : ℝ) : LogisticCDF x s ≤ 1 := by
  rw [LogisticCDF]
  rw [div_le_one (by positivity)]
  have := Real.exp_pos (-x / s)
  linarith

theorem trimmedDenom_le_one (s : ℝ) :
    LogisticCDF Real.pi s - LogisticCDF (-Real.pi) s ≤ 1 := by
  have h1 := LogisticCDF_le_one Real.pi s
  have h2 := LogisticCDF_nonneg (-Real.pi) s
  linarith

theorem Np_nonneg {scale : ℝ} (hs : 0 < scale) (phi : ℝ) (p : ℕ) (gammaO gammaT : ℝ) :
    0 ≤ Np phi p scale gammaO gammaT := by
  rw [Np, TrimmedLogistic]
  exact div_nonneg (le_of_lt (Logistic_pos hs _)) (le_of_lt (trimmedDenom_pos hs))

theorem Hair.scalePos {h : Hair} (ha : 0 < h.aRoughness) : 0 < h.scale := by
  rw [Hair.scale]
  have h2 : 0 < SQR h.aRoughness := mul_pos ha ha
  have h22 : 0 < h.aRoughness ^ 22 := pow_pos ha 22
  nlinarith

theorem INV_TWOPI_nonneg : 0 ≤ INV_TWOPI := by
  rw [INV_TWOPI]
  have := Real.pi_pos
  positivity

theorem expT_bounds (sigma : Spectrum) (g t : ℝ) (hg : 0 ≤ g) (ht : 0 ≤ t)
    (hsr : 0 ≤ sigma.r) (hsg : 0 ≤ sigma.g) (hsb : 0 ≤ sigma.b) :
    0 ≤ ((sigma.scale (-2 * g / t)).exp).r ∧ ((sigma.scale (-2 * g / t)).exp).r ≤ 1 ∧
    0 ≤ ((sigma.scale (-2 * g / t)).exp).g ∧ ((sigma.scale (-2 * g / t)).exp).g ≤ 1 ∧
    0 ≤ ((sigma.scale (-2 * g / t)).exp).b ∧ ((sigma.scale (-2 * g / t)).exp).b ≤ 1 := by
  simp only [Spectrum.exp_r, Spectrum.exp_g, Spectrum.exp_b,
    Spectrum.scale_r, Spectrum.scale_g, Spectrum.scale_b]
  exact ⟨(Real.exp_pos _).le, exp_absorb_le_one hsr hg ht,
    (Real.exp_pos _).le, exp_absorb_le_one hsg hg ht,
    (Real.exp_pos _).le, exp_absorb_le_one hsb hg ht⟩

theorem hairSum_comp_nonneg (ap : ℕ → Spectrum)
    (hap : ∀ j, 0 ≤ (ap j).r ∧ 0 ≤ (ap j).g ∧ 0 ≤ (ap j).b)
    (coefs : ℕ → ℝ) (hc : ∀ p, 0 ≤ coefs p) {ctail : ℝ} (hct : 0 ≤ ctail) :
    0 ≤ ((∑ p ∈ Finset.range PMAX, (ap p).scale (coefs p)) + (ap PMAX).scale ctail).r ∧
    0 ≤ ((∑ p ∈ Finset.range PMAX, (ap p).scale (coefs p)) + (ap PMAX).scale ctail).g ∧
    0 ≤ ((∑ p ∈ Finset.range PMAX, (ap p).scale (coefs p)) + (ap PMAX).scale ctail).b := by
  rw [show PMAX = 3 from rfl, Finset.sum_range_succ, Finset.sum_range_succ,
    Finset.sum_range_one]
  refine ⟨?_, ?_, ?_⟩ <;>
    simp only [Spectrum.add_r, Spectrum.add_g, Spectrum.add_b,
      Spectrum.scale_r, Spectrum.scale_g, Spectrum.scale_b] <;>
    apply add_nonneg (add_nonneg (add_nonneg
      (mul_nonneg ?_ (hc 0)) (mul_nonneg ?_ (hc 1))) (mul_nonneg ?_ (hc 2)))
      (mul_nonneg ?_ hct)
  exacts [(hap 0).1, (hap 1).1, (hap 2).1, (hap 3).1,
          (hap 0).2.1, (hap 1).2.1, (hap 2).2.1, (hap 3).2.1,
          (hap 0).2.2, (hap 1).2.2, (hap 2).2.2, (hap 3).2.2]

theorem Hair.f_comp_nonneg (h : Hair) (wo wi : Vector3f) (ha : 0 < h.aRoughness)
    (heta : 1 < h.eta) (hsr : 0 ≤ h.sigma.r) (hsg : 0 ≤ h.sigma.g)
    (hsb : 0 ≤ h.sigma.b) :
    0 ≤ (h.f wo wi).r ∧ 0 ≤ (h.f wo wi).g ∧ 0 ≤ (h.f wo wi).b := by
  have hsc := Hair.scalePos ha
  simp only [Hair.f]
  refine hairSum_comp_nonneg _ ?_ _ ?_ ?_
  · refine ApVec_comp_nonneg _ _ _ _ heta ?_ ?_ ?_ ?_ ?_ ?_
    · exact (expT_bounds h.sigma _ _ (ssqrt_nonneg _) (ssqrt_nonneg _) hsr hsg hsb).1
    · exact (expT_bounds h.sigma _ _ (ssqrt_nonneg _) (ssqrt_nonneg _) hsr hsg hsb).2.1
    · exact (expT_bounds h.sigma _ _ (ssqrt_nonneg _) (ssqrt_nonneg _) hsr hsg hsb).2.2.1
    · exact (expT_bounds h.sigma _ _ (ssqrt_nonneg _) (ssqrt_nonneg _) hsr hsg hsb).2.2.2.1
    · exact (expT_bounds h.sigma _ _ (ssqrt_nonneg _) (ssqrt_nonneg _) hsr hsg hsb).2.2.2.2.1
    · exact (expT_bounds h.sigma _ _ (ssqrt_nonneg _) (ssqrt_nonneg _) hsr hsg hsb).2.2.2.2.2
  · intro p
    exact mul_nonneg (Mp_nonneg _ _ _ _ _) (Np_nonneg hsc _ _ _ _)
  · exact mul_nonneg (Mp_nonneg _ _ _ _ _) INV_TWOPI_nonneg

theorem Hair.pdf_nonneg (h : Hair) (wo wi : Vector3f) (ha : 0 < h.aRoughness)
    (heta : 1 < h.eta) (hsr : 0 ≤ h.sigma.r) (hsg : 0 ≤ h.sigma.g)
    (hsb : 0 ≤ h.sigma.b) :
    0 ≤ h.pdf wo wi := by
  have hsc := Hair.scalePos ha
  simp only [Hair.pdf]
  apply add_nonneg
  · apply Finset.sum_nonneg
    intro p hp
    have hip : p ≤ PMAX := le_of_lt (Finset.mem_range.mp hp)
    exact mul_nonneg (mul_nonneg (Mp_nonneg _ _ _ _ _)
      ((ComputeApPdf_props _ _ _ _ _ heta hsr hsg hsb).1 p hip))
      (Np_nonneg hsc _ _ _ _)
  · exact mul_nonneg (mul_nonneg (Mp_nonneg _ _ _ _ _)
      ((ComputeApPdf_props _ _ _ _ _ heta hsr hsg hsb).1 PMAX le_rfl))
      INV_TWOPI_nonneg

theorem Hair.samplePdf_nonneg (h : Hair) (wo : Vector3f) (r1 r2 r3 r4 : ℝ)
    (ha : 0 < h.aRoughness) (heta : 1 < h.eta)
    (hsr : 0 ≤ h.sigma.r) (hsg : 0 ≤ h.sigma.g) (hsb : 0 ≤ h.sigma.b) :
    0 ≤ (h.sampleF wo r1 r2 r3 r4).2.1 := by
  have hsc := Hair.scalePos ha
  simp only [Hair.sampleF]
  apply add_nonneg
  · apply Finset.sum_nonneg
    intro p hp
    have hip : p ≤ PMAX := le_of_lt (Finset.mem_range.mp hp)
    exact mul_nonneg (mul_nonneg (Mp_nonneg _ _ _ _ _)
      ((ComputeApPdf_props _ _ _ _ _ heta hsr hsg hsb).1 p hip))
      (Np_nonneg hsc _ _ _ _)
  · exact mul_nonneg (mul_nonneg (Mp_nonneg _ _ _ _ _)
      ((ComputeApPdf_props _ _ _ _ _ heta hsr hsg hsb).1 PMAX le_rfl))
      INV_TWOPI_nonneg

theorem Hair.sampleValue_nonneg (h : Hair) (wo : Vector3f) (r1 r2 r3 r4 : ℝ)
    (ha : 0 < h.aRoughness) (heta : 1 < h.eta)
    (hsr : 0 ≤ h.sigma.r) (hsg : 0 ≤ h.sigma.g) (hsb : 0 ≤ h.sigma.b) :
    0 ≤ (h.sampleF wo r1 r2 r3 r4).2.2.r ∧ 0 ≤ (h.sampleF wo r1 r2 r3 r4).2.2.g ∧
    0 ≤ (h.sampleF wo r1 r2 r3 r4).2.2.b := by
  simp only [Hair.sampleF]
  exact Hair.f_comp_nonneg h wo _ ha heta hsr hsg hsb

theorem ssqrt_eq_of_sq {x a : ℝ} (ha : 0 ≤ a) (h : a * a = x) : ssqrt x = a := by
  rw [ssqrt, ← h, max_eq_left (mul_self_nonneg a), Real.sqrt_mul_self ha]

theorem exp_le_inv_one_sub {x : ℝ} (h : x < 1) : Real.exp x ≤ 1 / (1 - x) := by
  have h1 := Real.add_one_le_exp (-x)
  have h2 : (0 : ℝ) < 1 - x := by linarith
  have h3 := Real.exp_pos x
  rw [Real.exp_neg] at h1
  rw [le_div_iff h2]
  have h4 : (1 - x) * Real.exp x ≤ (Real.exp x)⁻¹ * Real.exp x := by
    apply mul_le_mul_of_nonneg_right _ h3.le
    linarith
  rw [inv_mul_cancel₀ (ne_of_gt h3)] at h4
  linarith

theorem sinh_le_bound {t : ℝ} (h0 : 0 ≤ t) (h1 : t < 1) :
    Real.sinh t ≤ t * (2 - t) / (2 * (1 - t)) := by
  rw [Real.sinh_eq]
  have h2 : Real.exp t ≤ 1 / (1 - t) := exp_le_inv_one_sub h1
  have h3 : 1 - t ≤ Real.exp (-t) := by
    have := Real.add_one_le_exp (-t)
    linarith
  have h4 : (0 : ℝ) < 1 - t := by linarith
  have key : 1 / (1 - t) - (1 - t) = t * (2 - t) / (1 - t) := by
    field_simp
    ring
  have h5 : Real.exp t - Real.exp (-t) ≤ t * (2 - t) / (1 - t) := by
    rw [← key]
    linarith
  rw [div_le_div_iff (by norm_num) (by positivity)]
  have h6 : (Real.exp t - Real.exp (-t)) * (1 - t) ≤ t * (2 - t) :=
    (le_div_iff h4).mp h5
  nlinarith

theorem self_le_sinh {t : ℝ} (h0 : 0 ≤ t) : t ≤ Real.sinh t := by
  rcases eq_or_lt_of_le h0 with h | h
  · rw [← h, Real.sinh_zero]
  · exact le_of_lt (Real.self_lt_sinh_iff.mpr h)

theorem I0_zero : I0 0 = 1 := by
  rw [I0]
  rw [Finset.sum_range_succ, Finset.sum_range_succ, Finset.sum_range_succ,
    Finset.sum_range_succ, Finset.sum_range_succ, Finset.sum_range_succ,
    Finset.sum_range_succ, Finset.sum_range_succ, Finset.sum_range_succ,
    Finset.sum_range_one]
  norm_num [Nat.factorial]

theorem Logistic_zero (s : ℝ) : Logistic 0 s = 1 / (4 * s) := by
  rw [Logistic]
  norm_num [SQR, Real.exp_zero]
  ring_nf

/-! ### C2 counterexample configuration -/

/-- Concrete hair parameters for the C2 counterexample: zero absorption,
longitudinal roughness 1, azimuthal roughness 0.3, index 2. -/
def c2Hair : Hair := ⟨⟨0, 0, 0⟩, 1, 3/10, 2⟩

/-- Concrete outgoing direction for the C2 counterexample: exactly grazing. -/
def c2wo : Vector3f := ⟨-1, 0, 0⟩

theorem zeroSpec_scale (x : ℝ) : (Spectrum.mk 0 0 0).scale x = Spectrum.mk 0 0 0 := by
  simp [Spectrum.scale]

theorem zeroSpec_exp : (Spectrum.mk 0 0 0).exp = Spectrum.mk 1 1 1 := by
  simp [Spectrum.exp]

theorem c2_f_eval : DielectricFresnel (0 * ssqrt (1 - SQR (0:ℝ))) 1 2 = 1 := by
  rw [zero_mul, DielectricFresnel_at_zero (by norm_num)]

theorem c2_ap0 : (ApVec 0 2 0 (Spectrum.mk 1 1 1) 0).intensity = 1 := by
  rw [ApVec_zero, c2_f_eval]
  norm_num [Spectrum.intensity, Spectrum.const]

theorem c2_ap1 : (ApVec 0 2 0 (Spectrum.mk 1 1 1) 1).intensity = 0 := by
  rw [ApVec_one_eq, c2_f_eval]
  norm_num [Spectrum.intensity, Spectrum.scale, SQR]

theorem c2_ap2 : (ApVec 0 2 0 (Spectrum.mk 1 1 1) 2).intensity = 0 := by
  rw [ApVec_two, ApVec_one_eq, c2_f_eval]
  norm_num [Spectrum.intensity, Spectrum.scale, Spectrum.mul, SQR]

theorem c2_ap3 : (ApVec 0 2 0 (Spectrum.mk 1 1 1) 3).intensity = 0 := by
  rw [ApVec_three, ApVec_two, ApVec_one_eq, c2_f_eval]
  norm_num [Spectrum.intensity, Spectrum.scale, Spectrum.mul, Spectrum.div,
    Spectrum.oneSub, SQR]

theorem c2_appdf (i : ℕ) :
    ComputeApPdf 0 0 (-1) 2 (Spectrum.mk 0 0 0) i
      = if i = 0 then 1 else 0 := by
  have hsum : ∑ j ∈ Finset.range (PMAX + 1),
      (ApVec 0 2 0 (Spectrum.mk 1 1 1) j).intensity = 1 := by
    rw [show PMAX + 1 = 4 from rfl, Finset.sum_range_succ, Finset.sum_range_succ,
      Finset.sum_range_succ, Finset.sum_range_one, c2_ap0, c2_ap1, c2_ap2, c2_ap3]
    norm_num
  simp only [ComputeApPdf, div_zero, zeroSpec_scale, zeroSpec_exp]
  norm_num [SQR, ssqrt, hsum]
  rcases i with _ | _ | _ | j
  · rw [if_pos rfl]
    exact c2_ap0
  · rw [if_neg (by norm_num)]
    exact c2_ap1
  · rw [if_neg (by norm_num)]
    exact c2_ap2
  · rw [if_neg (by omega)]
    have he : ApVec 0 2 0 (Spectrum.mk 1 1 1) (j + 3)
        = ApVec 0 2 0 (Spectrum.mk 1 1 1) 3 := rfl
    rw [he]
    exact c2_ap3

/-- Second uniform draw for the C2 counterexample, chosen so that the
sampled longitudinal cosine is exactly `39999/40001`. -/
def c2r2 : ℝ :=
  (Real.exp (-2/40001 / c2Hair.v 0) - Real.exp (-2 / c2Hair.v 0))
    / (1 - Real.exp (-2 / c2Hair.v 0))

/-- Fourth uniform draw for the C2 counterexample, chosen so that the
sampled azimuthal logistic offset is exactly 0. -/
def c2r4 : ℝ :=
  (1/2 - LogisticCDF (-Real.pi) c2Hair.scale)
    / (LogisticCDF Real.pi c2Hair.scale - LogisticCDF (-Real.pi) c2Hair.scale)

/-- Tilted longitudinal sine of the sampled direction in the C2
counterexample. -/
def c2SI : ℝ := (c2Hair.tilt 0 (39999/40001) (400/40001)).1

/-- Tilted longitudinal cosine of the sampled direction in the C2
counterexample (negative, which is what breaks density consistency). -/
def c2CI : ℝ := (c2Hair.tilt 0 (39999/40001) (400/40001)).2

theorem c2_v0 : c2Hair.v 0 = 6859161/250000 := by
  norm_num [Hair.v, Hair.v0, SQR, c2Hair]

theorem c2_scale_lo : (0.11715 : ℝ) ≤ c2Hair.scale := by
  rw [Hair.scale]
  norm_num [SQR, c2Hair]

theorem c2_scale_hi : c2Hair.scale ≤ (0.11716 : ℝ) := by
  rw [Hair.scale]
  norm_num [SQR, c2Hair]

theorem c2_scale_pos : 0 < c2Hair.scale := by
  have := c2_scale_lo
  linarith

theorem c2_logarg : c2r2 + (1 - c2r2) * Real.exp (-2 / c2Hair.v 0)
    = Real.exp (-2/40001 / c2Hair.v 0) := by
  have hqlt : Real.exp (-2 / c2Hair.v 0) < 1 := by
    rw [c2_v0]
    apply Real.exp_lt_one_iff.mpr
    norm_num
  have hne : 1 - Real.exp (-2 / c2Hair.v 0) ≠ 0 := sub_ne_zero.mpr (ne_of_lt hqlt).symm
  rw [c2r2]
  field_simp
  ring

theorem c2_hcosO : ssqrt (1 - SQR (-1 : ℝ)) = 0 := by
  norm_num [ssqrt, SQR]

theorem c2_hsel :
    Hair.selectLobe 0 (ComputeApPdf 0 0 (-1) 2 (Spectrum.mk 0 0 0)) = 0 := by
  rw [Hair.selectLobe]
  rw [show PMAX = 3 from rfl]
  rw [Hair.lobeScan]
  rw [c2_appdf 0]
  norm_num

theorem c2_hphiO : atan2 0 0 = 0 := by
  simp [atan2]

theorem c2_stl : SampleTrimmedLogistic c2r4 c2Hair.scale (-Real.pi) Real.pi = 0 := by
  have hk : 0 < LogisticCDF Real.pi c2Hair.scale - LogisticCDF (-Real.pi) c2Hair.scale :=
    trimmedDenom_pos c2_scale_pos
  rw [SampleTrimmedLogistic, c2r4]
  rw [div_mul_cancel₀ _ (ne_of_gt hk)]
  have harg : 1 / (1/2 - LogisticCDF (-Real.pi) c2Hair.scale
      + LogisticCDF (-Real.pi) c2Hair.scale) - 1 = 1 := by
    norm_num
  rw [sub_add_cancel, show (1 : ℝ) / (1/2) - 1 = 1 by norm_num, Real.log_one, mul_zero]
  have hpi := Real.pi_pos
  rw [clamp, max_eq_left (by linarith), min_eq_left (by linarith)]

theorem c2_cosTheta : 1 + c2Hair.v 0 * (-2/40001 / c2Hair.v 0) = 39999/40001 := by
  rw [c2_v0]
  norm_num

theorem c2_ssqrtc : ssqrt (1 - SQR (39999/40001 : ℝ)) = 400/40001 :=
  ssqrt_eq_of_sq (by norm_num) (by norm_num [SQR])

theorem c2_gammaO : Real.arcsin (clamp (ssqrt (1 - SQR (0:ℝ))) (-1) 1) = Real.pi / 2 := by
  have h1 : ssqrt (1 - SQR (0:ℝ)) = 1 := by
    norm_num [ssqrt, SQR]
  rw [h1, clamp]
  norm_num [Real.arcsin_one]

theorem c2_gammaT : Real.arcsin (clamp ((ssqrt (1 - SQR (0:ℝ))) / (Real.sqrt (c2Hair.etaSqr - SQR (-1)) / 0)) (-1) 1) = 0 := by
  rw [div_zero, div_zero, clamp]
  norm_num [Real.arcsin_zero]

theorem c2_sample_eval :
    (c2Hair.sampleF c2wo 0 c2r2 0 c2r4).2.1
      = Mp |(c2Hair.tilt 0 c2SI c2CI).2| 0 (c2Hair.tilt 0 c2SI c2CI).1 (-1) (c2Hair.v 0)
          * Np (-Real.pi) 0 c2Hair.scale (Real.pi / 2) 0 ∧
    (c2Hair.sampleF c2wo 0 c2r2 0 c2r4).1 = ⟨c2SI, 0, -c2CI⟩ := by
  have hsig : c2Hair.sigma = Spectrum.mk 0 0 0 := rfl
  have heta : c2Hair.eta = 2 := rfl
  simp only [Hair.sampleF, c2wo]
  simp only [c2_hcosO, hsig, heta, c2_hphiO, c2_hsel]
  simp only [c2_logarg, Real.log_exp, c2_cosTheta]
  simp only [show TWO_PI * (0:ℝ) = 0 from by ring, Real.cos_zero]
  simp only [mul_zero, mul_one, add_zero, zero_add]
  simp only [show -(39999/40001:ℝ) * (-1) = 39999/40001 from by norm_num]
  simp only [c2_ssqrtc, c2_gammaO, c2_gammaT, c2_stl]
  simp only [show PMAX = 3 from rfl]
  norm_num [Phi]
  simp only [show -(2 * (Real.pi / 2)) = -Real.pi from by ring]
  constructor
  · rw [Finset.sum_range_succ, Finset.sum_range_succ, Finset.sum_range_one]
    rw [c2_appdf 0, c2_appdf 1, c2_appdf 2, c2_appdf 3]
    simp only [c2SI, c2CI]
    norm_num
  · simp only [c2SI, c2CI]
    refine ⟨trivial, Or.inr ?_, ?_⟩
    · rw [show 2 * (Real.pi / 2) = Real.pi from by ring, Real.sin_pi]
    · rw [show 2 * (Real.pi / 2) = Real.pi from by ring, Real.cos_pi]
      ring

theorem alpha_pos : 0 < Hair.alpha := by norm_num [Hair.alpha]

theorem alpha_sin_pos : 0 < Real.sin Hair.alpha :=
  Real.sin_pos_of_pos_of_lt_pi alpha_pos
    (lt_trans (by norm_num [Hair.alpha]) Real.pi_gt_three)

theorem alpha_sin_hi : Real.sin Hair.alpha < 0.0111112 :=
  lt_of_lt_of_le (Real.sin_lt alpha_pos) (by norm_num [Hair.alpha])

theorem alpha_sin_lo : (0.0111107 : ℝ) < Real.sin Hair.alpha := by
  have h := Real.sin_gt_sub_cube alpha_pos (by norm_num [Hair.alpha])
  have : (0.0111107 : ℝ) ≤ Hair.alpha - Hair.alpha ^ 3 / 4 := by
    norm_num [Hair.alpha]
  linarith

theorem alpha_sin_sq_le : SQR (Real.sin Hair.alpha) ≤ 1 := by
  have h1 := alpha_sin_pos
  have h2 := alpha_sin_hi
  rw [SQR]
  nlinarith

theorem alpha_c0_sq : ssqrt (1 - SQR (Real.sin Hair.alpha)) *
    ssqrt (1 - SQR (Real.sin Hair.alpha)) = 1 - SQR (Real.sin Hair.alpha) := by
  have := alpha_sin_sq_le
  rw [ssqrt, max_eq_left (by linarith)]
  exact Real.mul_self_sqrt (by linarith)

theorem alpha_c0_le_one : ssqrt (1 - SQR (Real.sin Hair.alpha)) ≤ 1 := by
  rw [ssqrt]
  have h1 := alpha_sin_sq_le
  have h2 : max (1 - SQR (Real.sin Hair.alpha)) 0 ≤ 1 := by
    rw [max_le_iff]
    constructor
    · have : 0 ≤ SQR (Real.sin Hair.alpha) := mul_self_nonneg _
      linarith
    · norm_num
  calc Real.sqrt (max (1 - SQR (Real.sin Hair.alpha)) 0)
      ≤ Real.sqrt 1 := Real.sqrt_le_sqrt h2
    _ = 1 := Real.sqrt_one

theorem alpha_c0_lo : (0.9999 : ℝ) < ssqrt (1 - SQR (Real.sin Hair.alpha)) := by
  rw [ssqrt]
  have h1 := alpha_sin_hi
  have h0 := alpha_sin_pos
  have hsq : SQR (Real.sin Hair.alpha) < 0.000123459 := by
    rw [SQR]
    nlinarith
  have harg : max (1 - SQR (Real.sin Hair.alpha)) 0 = 1 - SQR (Real.sin Hair.alpha) :=
    max_eq_left (by nlinarith [mul_self_nonneg (Real.sin Hair.alpha)])
  rw [harg]
  rw [show (0.9999 : ℝ) = Real.sqrt (0.9999 ^ 2) from
    (Real.sqrt_sq (by norm_num)).symm]
  apply Real.sqrt_lt_sqrt (by norm_num)
  nlinarith

/-- The per-lobe tilt is a rotation: it preserves `sin² + cos²`. -/
theorem Hair.tilt_norm (h : Hair) (p : ℕ) (s c : ℝ) :
    (h.tilt p s c).1 * (h.tilt p s c).1 + (h.tilt p s c).2 * (h.tilt p s c).2
      = s * s + c * c := by
  have base : Real.sin Hair.alpha * Real.sin Hair.alpha +
      ssqrt (1 - SQR (Real.sin Hair.alpha)) * ssqrt (1 - SQR (Real.sin Hair.alpha)) = 1 := by
    have := alpha_c0_sq
    rw [SQR] at *
    linarith
  have st1 := sincos_double base
  have st2 := sincos_double st1
  simp only [SQR] at base st1 st2
  rcases p with _ | _ | _ | p
  · norm_num only [Hair.tilt, Hair.sin2kAlpha, Hair.cos2kAlpha, SQR, if_true, if_false]
    linear_combination (s * s + c * c) * st1
  · norm_num only [Hair.tilt, Hair.sin2kAlpha, Hair.cos2kAlpha, SQR, if_true, if_false]
    linear_combination (s * s + c * c) * base
  · norm_num only [Hair.tilt, Hair.sin2kAlpha, Hair.cos2kAlpha, SQR, if_true, if_false]
    linear_combination (s * s + c * c) * st2
  · simp only [Hair.tilt]
    rw [if_neg (by omega), if_neg (by omega), if_neg (by omega)]

theorem c2_SICI_sq : c2SI * c2SI + c2CI * c2CI = 1 := by
  rw [c2SI, c2CI, Hair.tilt_norm]
  norm_num

theorem c2_CI_neg : c2CI < 0 := by
  rw [c2CI]
  norm_num only [Hair.tilt, Hair.sin2kAlpha, Hair.cos2kAlpha, SQR, if_true, if_false]
  have h1 := alpha_sin_lo
  have h2 := alpha_sin_hi
  have h3 := alpha_c0_lo
  have h4 := alpha_c0_le_one
  have h5 := alpha_c0_sq
  simp only [SQR] at h3 h4 h5
  have hCS : (0.0111095 : ℝ) <
      ssqrt (1 - Real.sin Hair.alpha * Real.sin Hair.alpha) * Real.sin Hair.alpha := by
    nlinarith
  nlinarith [hCS, h5, mul_self_nonneg (Real.sin Hair.alpha)]

theorem c2_pdf_cos : ssqrt (1 - SQR c2SI) = -c2CI := by
  refine ssqrt_eq_of_sq (by linarith [c2_CI_neg]) ?_
  have h := c2_SICI_sq
  rw [SQR]
  nlinarith

theorem c2_pdf_phiI : atan2 0 (-c2CI) = 0 := by
  rw [atan2, if_pos (by linarith [c2_CI_neg])]
  rw [zero_div, Real.arctan_zero]

theorem c2_pdf_eval :
    c2Hair.pdf c2wo ⟨c2SI, 0, -c2CI⟩
      = Mp |(c2Hair.tilt 0 c2SI (-c2CI)).2| 0 (c2Hair.tilt 0 c2SI (-c2CI)).1 (-1)
          (c2Hair.v 0) * Np 0 0 c2Hair.scale (Real.pi / 2) 0 := by
  have hsig : c2Hair.sigma = Spectrum.mk 0 0 0 := rfl
  have heta : c2Hair.eta = 2 := rfl
  simp only [Hair.pdf, c2wo]
  simp only [c2_hcosO, hsig, heta, c2_hphiO, c2_pdf_cos, c2_pdf_phiI, c2_gammaO,
    c2_gammaT]
  rw [show PMAX = 3 from rfl]
  rw [Finset.sum_range_succ, Finset.sum_range_succ, Finset.sum_range_one]
  rw [c2_appdf 0, c2_appdf 1, c2_appdf 2, c2_appdf 3]
  norm_num

theorem c2_Phi0 : Phi 0 (Real.pi / 2) 0 = -Real.pi := by
  rw [Phi]
  push_cast
  ring

theorem c2_denom_lo : (13:ℝ)/28
    ≤ LogisticCDF Real.pi c2Hair.scale - LogisticCDF (-Real.pi) c2Hair.scale := by
  have hs0 := c2_scale_pos
  have hs1 := c2_scale_hi
  have hpi := Real.pi_gt_3141592
  have hratio : (26:ℝ) ≤ Real.pi / c2Hair.scale := by
    rw [le_div_iff hs0]
    nlinarith
  have h1 : LogisticCDF Real.pi c2Hair.scale ≥ 1/2 := by
    rw [LogisticCDF]
    have he : Real.exp (-Real.pi / c2Hair.scale) ≤ 1 := by
      rw [show -Real.pi / c2Hair.scale = -(Real.pi / c2Hair.scale) from by ring]
      rw [show (1:ℝ) = Real.exp 0 from Real.exp_zero.symm]
      apply Real.exp_le_exp.mpr
      linarith
    have hp : 0 < 1 + Real.exp (-Real.pi / c2Hair.scale) := by positivity
    rw [ge_iff_le, le_div_iff hp]
    linarith
  have h2 : LogisticCDF (-Real.pi) c2Hair.scale ≤ 1/28 := by
    rw [LogisticCDF]
    have he : (27:ℝ) ≤ Real.exp (- -Real.pi / c2Hair.scale) := by
      rw [neg_neg]
      have := Real.add_one_le_exp (Real.pi / c2Hair.scale)
      linarith
    have hp : (0:ℝ) < 1 + Real.exp (- -Real.pi / c2Hair.scale) := by positivity
    rw [div_le_div_iff hp (by norm_num)]
    linarith
  linarith

theorem c2_Np_lo : 2 ≤ Np (-Real.pi) 0 c2Hair.scale (Real.pi / 2) 0 := by
  rw [Np, c2_Phi0, show -Real.pi - -Real.pi = 0 from by ring]
  have hpi := Real.pi_pos
  rw [reduceAngle_of_mem (by linarith) (by linarith)]
  rw [TrimmedLogistic, Logistic_zero]
  have hd0 := trimmedDenom_pos c2_scale_pos
  have hd1 := trimmedDenom_le_one c2Hair.scale
  have hs0 := c2_scale_pos
  have hs1 := c2_scale_hi
  have h14 : (2:ℝ) ≤ 1/(4 * c2Hair.scale) := by
    rw [le_div_iff (by linarith)]
    nlinarith
  have hnn : (0:ℝ) ≤ 1/(4 * c2Hair.scale) := by positivity
  calc (2:ℝ) ≤ 1/(4 * c2Hair.scale) := h14
    _ ≤ 1/(4 * c2Hair.scale) /
        (LogisticCDF Real.pi c2Hair.scale - LogisticCDF (-Real.pi) c2Hair.scale) := by
      rw [le_div_iff hd0]
      exact mul_le_of_le_one_right hnn hd1

theorem c2_Np_hi : Np (-Real.pi) 0 c2Hair.scale (Real.pi / 2) 0 ≤ 5 := by
  rw [Np, c2_Phi0, show -Real.pi - -Real.pi = 0 from by ring]
  have hpi := Real.pi_pos
  rw [reduceAngle_of_mem (by linarith) (by linarith)]
  rw [TrimmedLogistic, Logistic_zero]
  have hd13 := c2_denom_lo
  have hd0 := trimmedDenom_pos c2_scale_pos
  have hs0 := c2_scale_pos
  have hs1 := c2_scale_lo
  have h14 : 1/(4 * c2Hair.scale) ≤ (2.2:ℝ) := by
    rw [div_le_iff (by linarith)]
    nlinarith
  rw [div_le_iff hd0]
  nlinarith

theorem c2_pdf_Np_hi : Np 0 0 c2Hair.scale (Real.pi / 2) 0 ≤ 1/2000000 := by
  rw [Np, c2_Phi0, show (0:ℝ) - -Real.pi = Real.pi from by ring]
  have hpi := Real.pi_pos
  rw [reduceAngle_of_mem (by linarith) (by linarith)]
  rw [TrimmedLogistic]
  have hd13 := c2_denom_lo
  have hd0 := trimmedDenom_pos c2_scale_pos
  have hs0 := c2_scale_pos
  have hs1 := c2_scale_lo
  have hs2 := c2_scale_hi
  have hratio : (26:ℝ) ≤ Real.pi / c2Hair.scale := by
    rw [le_div_iff hs0]
    nlinarith [Real.pi_gt_3141592]
  have hexp : Real.exp (-|Real.pi| / c2Hair.scale) ≤ 1/67108864 := by
    rw [abs_of_pos hpi]
    have h1 : Real.exp (-Real.pi / c2Hair.scale) ≤ Real.exp (-26) := by
      apply Real.exp_le_exp.mpr
      rw [neg_div]
      linarith
    have h2 : Real.exp (-26 : ℝ) = Real.exp (-1) ^ (26:ℕ) := by
      rw [← Real.exp_nat_mul]
      norm_num
    have h3 : Real.exp (-1 : ℝ) ≤ 1/2 := by
      rw [Real.exp_neg]
      have h4 : (2:ℝ) ≤ Real.exp 1 := by
        have := Real.add_one_le_exp (1:ℝ)
        linarith
      rw [inv_le_comm₀ (Real.exp_pos 1) (by norm_num : (0:ℝ) < 1/2)]
      norm_num
      linarith
    have h5 : Real.exp (-1:ℝ) ^ (26:ℕ) ≤ (1/2:ℝ)^(26:ℕ) := by
      apply pow_le_pow_left (le_of_lt (Real.exp_pos _)) h3
    calc Real.exp (-Real.pi / c2Hair.scale) ≤ Real.exp (-26) := h1
      _ = Real.exp (-1) ^ (26:ℕ) := h2
      _ ≤ (1/2)^(26:ℕ) := h5
      _ = 1/67108864 := by norm_num
  have hexp0 : 0 < Real.exp (-|Real.pi| / c2Hair.scale) := Real.exp_pos _
  have hlog : Logistic Real.pi c2Hair.scale ≤ 1/67108864 / (11715/100000) := by
    rw [Logistic]
    simp only [SQR]
    set e := Real.exp (-|Real.pi| / c2Hair.scale) with he
    have hsq1 : (1:ℝ) ≤ (1 + e) * (1 + e) := by nlinarith
    have hden : (11715/100000:ℝ) ≤ c2Hair.scale * ((1 + e) * (1 + e)) := by nlinarith
    rw [div_le_div_iff (by nlinarith) (by norm_num)]
    nlinarith
  rw [div_le_iff hd0]
  calc Logistic Real.pi c2Hair.scale ≤ 1/67108864 / (11715/100000) := hlog
    _ ≤ 1/2000000 * (13/28) := by norm_num
    _ ≤ 1/2000000 * (LogisticCDF Real.pi c2Hair.scale - LogisticCDF (-Real.pi) c2Hair.scale) := by
      nlinarith

theorem Mp_deg_bounds {cI sI v : ℝ} (hv : 6 ≤ v) (hs : sI * sI ≤ 1) :
    1/3 ≤ Mp cI 0 sI (-1) v ∧ Mp cI 0 sI (-1) v ≤ 3/5 := by
  rw [Mp]
  have hv0 : (0:ℝ) < v := by linarith
  have hcond : ¬ v ≤ 0.1 := by
    norm_num
    linarith
  rw [if_neg hcond]
  have ha : cI * 0 / v = 0 := by ring
  have hb : sI * (-1) / v = -(sI / v) := by ring
  rw [ha, hb, I0_zero, neg_neg, mul_one]
  have hsI : |sI| ≤ 1 := abs_le_one_iff_mul_self_le_one.mpr hs
  rw [abs_le] at hsI
  have ht0 : (0:ℝ) < 1 / v := by positivity
  have ht6 : (1:ℝ) / v ≤ 1 / 6 := by
    rw [div_le_div_iff hv0 (by norm_num)]
    linarith
  have hsv_lo : -(1/6:ℝ) ≤ sI / v := by
    rw [neg_le, ← neg_div]
    calc -sI / v ≤ 1 / v := by
          apply div_le_div_of_nonneg_right ?_ hv0.le
          · linarith
      _ ≤ 1 / 6 := ht6
  have hsv_hi : sI / v ≤ 1/6 := by
    calc sI / v ≤ 1 / v := by
          apply div_le_div_of_nonneg_right ?_ hv0.le
          · linarith
      _ ≤ 1 / 6 := ht6
  have hexp_lo : (5/6:ℝ) ≤ Real.exp (sI / v) := by
    have := Real.add_one_le_exp (sI / v)
    linarith
  have hexp_hi : Real.exp (sI / v) ≤ 6/5 := by
    have h1 : Real.exp (sI / v) ≤ 1 / (1 - sI / v) := exp_le_inv_one_sub (by linarith)
    have h2 : (1:ℝ) / (1 - sI / v) ≤ 6/5 := by
      rw [div_le_div_iff (by linarith) (by norm_num)]
      linarith
    linarith
  have hsinh_lo : (2:ℝ) ≤ Real.sinh (1 / v) * 2 * v := by
    have h1 : 1 / v ≤ Real.sinh (1 / v) := self_le_sinh ht0.le
    have h2 : (1:ℝ) / v * 2 * v = 2 := by field_simp
    nlinarith
  have hsinh_hi : Real.sinh (1 / v) * 2 * v ≤ 11/5 := by
    have h1 : Real.sinh (1 / v) ≤ (1 / v) * (2 - 1 / v) / (2 * (1 - 1 / v)) :=
      sinh_le_bound ht0.le (by linarith)
    have h2 : (1 / v) * (2 - 1 / v) / (2 * (1 - 1 / v)) ≤ (1 / v) * (11/10) := by
      rw [div_le_iff (by nlinarith)]
      have h3 : (0:ℝ) < 1 / v := ht0
      nlinarith
    have h4 : (1:ℝ) / v * 2 * v = 2 := by field_simp
    nlinarith
  constructor
  · rw [le_div_iff (by nlinarith)]
    nlinarith
  · rw [div_le_iff (by nlinarith)]
    nlinarith

theorem ssqrt_mul_self {x : ℝ} (h : 0 ≤ x) : ssqrt x * ssqrt x = x := by
  rw [ssqrt, max_eq_left h, Real.mul_self_sqrt h]

theorem atan2_cos_sin {y x : ℝ} (h : x ≠ 0 ∨ y ≠ 0) :
    Real.cos (atan2 y x) = x / Real.sqrt (x*x + y*y) ∧
    Real.sin (atan2 y x) = y / Real.sqrt (x*x + y*y) := by
  have hrr : Real.sqrt (x*x+y*y) * Real.sqrt (x*x+y*y) = x*x+y*y :=
    Real.mul_self_sqrt (add_nonneg (mul_self_nonneg x) (mul_self_nonneg y))
  have hr0 : 0 < Real.sqrt (x*x+y*y) := by
    rcases h with hx | hy
    · apply Real.sqrt_pos.mpr
      nlinarith [mul_self_nonneg y, mul_self_pos.mpr hx]
    · apply Real.sqrt_pos.mpr
      nlinarith [mul_self_nonneg x, mul_self_pos.mpr hy]
  set r := Real.sqrt (x*x+y*y) with hrdef
  rw [atan2]
  split_ifs with h1 h2 h3 h4 h5
  · have hs : Real.sqrt (1 + (y/x)^2) = r / x := by
      have key : 1 + (y/x)^2 = (r/x)^2 := by
        field_simp
        nlinarith
      rw [key, Real.sqrt_sq (div_nonneg hr0.le h1.le)]
    constructor
    · rw [Real.cos_arctan, hs]
      rw [one_div, inv_div]
    · rw [Real.sin_arctan, hs]
      field_simp
  · have hx0 : x ≠ 0 := ne_of_lt h2
    have hs : Real.sqrt (1 + (y/x)^2) = r / (-x) := by
      have key : 1 + (y/x)^2 = (r/(-x))^2 := by
        field_simp
        nlinarith
      rw [key, Real.sqrt_sq (div_nonneg hr0.le (by linarith))]
    constructor
    · rw [Real.cos_add, Real.cos_pi, Real.sin_pi, Real.cos_arctan, Real.sin_arctan, hs]
      field_simp
    · rw [Real.sin_add, Real.cos_pi, Real.sin_pi, Real.cos_arctan, Real.sin_arctan, hs]
      field_simp
      ring
  · have hx0 : x ≠ 0 := ne_of_lt h2
    have hs : Real.sqrt (1 + (y/x)^2) = r / (-x) := by
      have key : 1 + (y/x)^2 = (r/(-x))^2 := by
        field_simp
        nlinarith
      rw [key, Real.sqrt_sq (div_nonneg hr0.le (by linarith))]
    constructor
    · rw [Real.cos_sub, Real.cos_pi, Real.sin_pi, Real.cos_arctan, Real.sin_arctan, hs]
      field_simp
    · rw [Real.sin_sub, Real.cos_pi, Real.sin_pi, Real.cos_arctan, Real.sin_arctan, hs]
      field_simp
      ring
  · have hx0 : x = 0 := le_antisymm (not_lt.mp h1) (not_lt.mp h2)
    subst hx0
    have hry : r = y := by
      rw [hrdef, show (0:ℝ)*0 + y*y = y*y from by ring, Real.sqrt_mul_self h4.le]
    constructor
    · rw [Real.cos_pi_div_two, hry, zero_div]
    · rw [Real.sin_pi_div_two, hry, div_self (ne_of_gt h4)]
  · have hx0 : x = 0 := le_antisymm (not_lt.mp h1) (not_lt.mp h2)
    subst hx0
    have hry : r = -y := by
      rw [hrdef, show (0:ℝ)*0 + y*y = (-y)*(-y) from by ring,
        Real.sqrt_mul_self (by linarith)]
    constructor
    · rw [Real.cos_neg, Real.cos_pi_div_two, hry, zero_div]
    · rw [Real.sin_neg, Real.sin_pi_div_two, hry]
      rw [div_neg, div_self (ne_of_lt h5)]
  · exfalso
    have hx0 : x = 0 := le_antisymm (not_lt.mp h1) (not_lt.mp h2)
    have hy0 : y = 0 := le_antisymm (not_lt.mp h4) (not_lt.mp h5)
    rcases h with hx | hy
    · exact hx hx0
    · exact hy hy0

theorem atan2_mem (y x : ℝ) : -Real.pi < atan2 y x ∧ atan2 y x ≤ Real.pi := by
  have hpi := Real.pi_pos
  have hub := Real.arctan_lt_pi_div_two (y/x)
  have hlb := Real.neg_pi_div_two_lt_arctan (y/x)
  rw [atan2]
  split_ifs with h1 h2 h3 h4 h5
  · constructor <;> linarith
  · have hyx : y / x ≤ 0 := div_nonpos_of_nonneg_of_nonpos h3 h2.le
    have : Real.arctan (y/x) ≤ 0 := by
      calc Real.arctan (y/x) ≤ Real.arctan 0 := by
            rcases lt_or_eq_of_le hyx with h | h
            · exact le_of_lt (Real.arctan_strictMono h)
            · rw [h]
        _ = 0 := Real.arctan_zero
    constructor <;> linarith
  · push_neg at h3
    have hyx : 0 < y / x := div_pos_iff.mpr (Or.inr ⟨h3, h2⟩)
    have : 0 < Real.arctan (y/x) := by
      calc (0:ℝ) = Real.arctan 0 := Real.arctan_zero.symm
        _ < Real.arctan (y/x) := Real.arctan_strictMono hyx
    constructor <;> linarith
  · constructor <;> linarith
  · constructor <;> linarith
  · constructor <;> linarith

theorem atan2_polar {c ψ : ℝ} (hc : 0 < c) :
    ∃ k : ℤ, atan2 (c * Real.sin ψ) (c * Real.cos ψ) = ψ + 2 * Real.pi * k := by
  have hpyth := Real.sin_sq_add_cos_sq ψ
  have hne : c * Real.cos ψ ≠ 0 ∨ c * Real.sin ψ ≠ 0 := by
    by_contra hcon
    push_neg at hcon
    obtain ⟨hz1, hz2⟩ := hcon
    have hc1 : Real.cos ψ = 0 := by
      rcases mul_eq_zero.mp hz1 with h | h
      · exact absurd h (ne_of_gt hc)
      · exact h
    have hc2 : Real.sin ψ = 0 := by
      rcases mul_eq_zero.mp hz2 with h | h
      · exact absurd h (ne_of_gt hc)
      · exact h
    rw [hc1, hc2] at hpyth
    norm_num at hpyth
  obtain ⟨hcos, hsin⟩ := atan2_cos_sin hne
  have hr : Real.sqrt (c*Real.cos ψ*(c*Real.cos ψ) + c*Real.sin ψ*(c*Real.sin ψ)) = c := by
    rw [show c*Real.cos ψ*(c*Real.cos ψ) + c*Real.sin ψ*(c*Real.sin ψ)
        = (Real.sin ψ^2 + Real.cos ψ^2) * (c * c) from by ring, hpyth, one_mul,
      Real.sqrt_mul_self hc.le]
  rw [hr] at hcos hsin
  have hc' : Real.cos (atan2 (c*Real.sin ψ) (c*Real.cos ψ)) = Real.cos ψ := by
    rw [hcos, mul_comm, mul_div_assoc, div_self (ne_of_gt hc), mul_one]
  have hs' : Real.sin (atan2 (c*Real.sin ψ) (c*Real.cos ψ)) = Real.sin ψ := by
    rw [hsin, mul_comm, mul_div_assoc, div_self (ne_of_gt hc), mul_one]
  have hone : Real.cos (atan2 (c*Real.sin ψ) (c*Real.cos ψ) - ψ) = 1 := by
    rw [Real.cos_sub, hc', hs']
    nlinarith
  obtain ⟨n, hn⟩ := Real.cos_eq_one_iff _ |>.mp hone
  refine ⟨n, ?_⟩
  push_cast at hn ⊢
  linarith

theorem Logistic_reduce_mod {x y : ℝ} (s : ℝ) (k : ℤ) (hxy : x = y + 2*Real.pi*k) :
    Logistic (reduceAngle x) s = Logistic (reduceAngle y) s := by
  obtain ⟨a, ha⟩ := reduceAngle_modEq x
  obtain ⟨b, hb⟩ := reduceAngle_modEq y
  obtain ⟨hx1, hx2⟩ := reduceAngle_mem x
  obtain ⟨hy1, hy2⟩ := reduceAngle_mem y
  have hpi := Real.pi_pos
  have hm : reduceAngle x - reduceAngle y = 2*Real.pi*((k + a - b : ℤ) : ℝ) := by
    push_cast
    rw [ha, hb, hxy]
    ring
  have habs : |((k + a - b : ℤ) : ℝ)| ≤ 1 := by
    rw [abs_le]
    constructor <;> nlinarith
  have hcase : (k + a - b : ℤ) = -1 ∨ (k + a - b : ℤ) = 0 ∨ (k + a - b : ℤ) = 1 := by
    have h1 : |(k + a - b : ℤ)| ≤ 1 := by
      have h2 : |((k + a - b : ℤ) : ℝ)| = ((|k + a - b| : ℤ) : ℝ) := Int.cast_abs.symm
      rw [h2] at habs
      exact_mod_cast habs
    rw [abs_le] at h1
    omega
  rcases hcase with hc | hc | hc
  · rw [hc] at hm
    push_cast at hm
    have hyv : reduceAngle y = Real.pi := by linarith
    have hxv : reduceAngle x = -Real.pi := by linarith
    rw [hxv, hyv]
    exact Logistic_neg Real.pi s
  · rw [hc] at hm
    push_cast at hm
    have : reduceAngle x = reduceAngle y := by linarith
    rw [this]
  · rw [hc] at hm
    push_cast at hm
    have hxv : reduceAngle x = Real.pi := by linarith
    have hyv : reduceAngle y = -Real.pi := by linarith
    rw [hxv, hyv]
    exact (Logistic_neg Real.pi s).symm

theorem Np_mod (x : ℝ) (k : ℤ) (p : ℕ) (s gO gT : ℝ) :
    Np (x + 2*Real.pi*k) p s gO gT = Np x p s gO gT := by
  rw [Np, Np, TrimmedLogistic, TrimmedLogistic]
  congr 1
  exact Logistic_reduce_mod s k (by ring)

theorem Hair.pdf_polar (h : Hair) (wo : Vector3f) (sI cI ψ : ℝ)
    (hcI : 0 < cI) (hnorm : sI * sI + cI * cI = 1) :
    h.pdf wo ⟨sI, cI * Real.sin ψ, cI * Real.cos ψ⟩
      = (∑ p ∈ Finset.range PMAX,
          Mp |(h.tilt p sI cI).2| (ssqrt (1 - SQR wo.x)) (h.tilt p sI cI).1 wo.x (h.v p) *
            ComputeApPdf wo.y (ssqrt (1 - SQR wo.x)) wo.x h.eta h.sigma p *
            Np (ψ - atan2 wo.y wo.z) p h.scale
              (Real.arcsin (clamp (ssqrt (1 - SQR wo.y)) (-1) 1))
              (Real.arcsin (clamp (ssqrt (1 - SQR wo.y) /
                (Real.sqrt (h.etaSqr - SQR wo.x) / ssqrt (1 - SQR wo.x))) (-1) 1))) +
        Mp cI (ssqrt (1 - SQR wo.x)) sI wo.x (h.v PMAX) *
          ComputeApPdf wo.y (ssqrt (1 - SQR wo.x)) wo.x h.eta h.sigma PMAX * INV_TWOPI := by
  have hssq : ssqrt (1 - SQR sI) = cI := by
    apply ssqrt_eq_of_sq hcI.le
    simp only [SQR]
    linarith
  obtain ⟨k, hk⟩ := @atan2_polar cI ψ hcI
  simp only [Hair.pdf]
  rw [hssq, hk]
  rw [show ψ + 2*Real.pi*(k:ℝ) - atan2 wo.y wo.z
      = (ψ - atan2 wo.y wo.z) + 2*Real.pi*(k:ℝ) from by ring]
  simp only [Np_mod]

theorem pre_tilt_sin_sq_le_one {sO cO cT sT cP : ℝ}
    (hO : cO * cO = 1 - sO * sO) (hT : sT * sT = 1 - cT * cT) (hP : cP * cP ≤ 1) :
    (-cT * sO + sT * cP * cO) * (-cT * sO + sT * cP * cO) ≤ 1 := by
  have key : (-cT * sO + sT * cP * cO) * (-cT * sO + sT * cP * cO)
      = 1 - (cT*cP*cO + sT*sO)^2 - (1 - cP*cP)*(cO*cO) := by
    linear_combination (cP*cP*cO*cO + sO*sO) * hT + hO
  have h1 : (0:ℝ) ≤ (cT*cP*cO + sT*sO)^2 := sq_nonneg _
  have h2 : (0:ℝ) ≤ (1 - cP*cP)*(cO*cO) :=
    mul_nonneg (by linarith) (mul_self_nonneg cO)
  linarith

theorem sampled_cos_bounds {v r2 : ℝ} (hv : 0 < v) (h0 : 0 ≤ r2) (h1 : r2 ≤ 1) :
    -1 ≤ 1 + v * Real.log (r2 + (1 - r2) * Real.exp (-2 / v)) ∧
    1 + v * Real.log (r2 + (1 - r2) * Real.exp (-2 / v)) ≤ 1 := by
  have he0 : 0 < Real.exp (-2 / v) := Real.exp_pos _
  have he1 : Real.exp (-2 / v) ≤ 1 := by
    rw [Real.exp_le_one_iff, neg_div]
    have h2 : (0:ℝ) < 2 / v := by positivity
    linarith
  have harg_lo : Real.exp (-2 / v) ≤ r2 + (1 - r2) * Real.exp (-2 / v) := by nlinarith
  have harg_hi : r2 + (1 - r2) * Real.exp (-2 / v) ≤ 1 := by nlinarith
  have harg_pos : 0 < r2 + (1 - r2) * Real.exp (-2 / v) := lt_of_lt_of_le he0 harg_lo
  have hlog_hi : Real.log (r2 + (1 - r2) * Real.exp (-2 / v)) ≤ 0 :=
    Real.log_nonpos harg_pos.le harg_hi
  have hlog_lo : -2 / v ≤ Real.log (r2 + (1 - r2) * Real.exp (-2 / v)) := by
    have h2 := Real.log_le_log he0 harg_lo
    rwa [Real.log_exp] at h2
  constructor
  · have h3 : v * (-2 / v) ≤ v * Real.log (r2 + (1 - r2) * Real.exp (-2 / v)) :=
      mul_le_mul_of_nonneg_left hlog_lo hv.le
    have h4 : v * (-2 / v) = -2 := by
      field_simp
      ring
    linarith
  · nlinarith

theorem tilt_unit_cos_pos (h : Hair) (q : ℕ) : 0 < (h.tilt q 0 1).2 := by
  have h1 := alpha_sin_pos
  have h2 := alpha_sin_hi
  have h3 := alpha_c0_le_one
  have h4 := alpha_c0_lo
  simp only [SQR] at h3 h4
  rw [Hair.tilt]
  split_ifs with hq0 hq1 hq2
  · norm_num only [Hair.cos2kAlpha, Hair.sin2kAlpha, SQR, if_true, if_false]
    nlinarith
  · norm_num only [Hair.cos2kAlpha, Hair.sin2kAlpha, SQR, if_true, if_false]
    nlinarith
  · norm_num only [Hair.cos2kAlpha, Hair.sin2kAlpha, SQR, if_true, if_false]
    have hc1 : (0.9996:ℝ) < ssqrt (1 - Real.sin Hair.alpha * Real.sin Hair.alpha) *
        ssqrt (1 - Real.sin Hair.alpha * Real.sin Hair.alpha) -
        Real.sin Hair.alpha * Real.sin Hair.alpha := by nlinarith
    have hs1b : 2 * ssqrt (1 - Real.sin Hair.alpha * Real.sin Hair.alpha) *
        Real.sin Hair.alpha < 0.0222224 := by nlinarith
    have hs1a : 0 < 2 * ssqrt (1 - Real.sin Hair.alpha * Real.sin Hair.alpha) *
        Real.sin Hair.alpha := by nlinarith
    nlinarith
  · norm_num

theorem c2_v_pos (q : ℕ) : 0 < c2Hair.v q := by
  have h0 : 0 < c2Hair.v0 := by norm_num [Hair.v0, c2Hair, SQR]
  simp only [Hair.v]
  split_ifs <;> linarith

theorem c2_sample_S0 : c2Hair.sampleSinThetaI0 ⟨0, 0, 1⟩ 0 1 0 = 0 := by
  norm_num [Hair.sampleSinThetaI0, SQR, ssqrt, Real.sqrt_zero, Real.sqrt_one]

theorem c2_cosIp_pos : 0 < c2Hair.sampleCosThetaIp ⟨0, 0, 1⟩ 0 1 0 := by
  rw [Hair.sampleCosThetaIp, c2_sample_S0]
  have h1 : ssqrt (1 - SQR (0:ℝ)) = 1 := by
    apply ssqrt_eq_of_sq (by norm_num)
    norm_num [SQR]
  rw [h1]
  exact tilt_unit_cos_pos c2Hair _

theorem sqrt_eq_of_sq {x a : ℝ} (ha : 0 ≤ a) (h : a * a = x) : Real.sqrt x = a := by
  rw [← h, Real.sqrt_mul_self ha]

theorem sqrt2_bounds : (1.41421:ℝ) ≤ Real.sqrt 2 ∧ Real.sqrt 2 ≤ 1.41422 := by
  have h := Real.sq_sqrt (show (0:ℝ) ≤ 2 by norm_num)
  have hnn := Real.sqrt_nonneg 2
  constructor
  · nlinarith [sq_nonneg (Real.sqrt 2 - 1.41421)]
  · nlinarith [sq_nonneg (Real.sqrt 2 - 1.41422)]

theorem sqrt3_bounds : (1.73205:ℝ) ≤ Real.sqrt 3 ∧ Real.sqrt 3 ≤ 1.73206 := by
  have h := Real.sq_sqrt (show (0:ℝ) ≤ 3 by norm_num)
  have hnn := Real.sqrt_nonneg 3
  constructor
  · nlinarith [sq_nonneg (Real.sqrt 3 - 1.73205)]
  · nlinarith [sq_nonneg (Real.sqrt 3 - 1.73206)]

theorem I0_ge_one (x : ℝ) : 1 ≤ I0 x := by
  rw [I0]
  rw [Finset.sum_range_succ, Finset.sum_range_succ, Finset.sum_range_succ,
    Finset.sum_range_succ, Finset.sum_range_succ, Finset.sum_range_succ,
    Finset.sum_range_succ, Finset.sum_range_succ, Finset.sum_range_succ,
    Finset.sum_range_one]
  norm_num [Nat.factorial]
  have h2 : (0:ℝ) ≤ x^2 := sq_nonneg x
  have key : ∀ n : ℕ, (0:ℝ) ≤ x ^ (2*n) := by
    intro n
    rw [pow_mul]
    exact pow_nonneg (sq_nonneg x) n
  have h4 := key 2
  have h6 := key 3
  have h8 := key 4
  have h10 := key 5
  have h12 := key 6
  have h14 := key 7
  have h16 := key 8
  have h18 := key 9
  norm_num at h4 h6 h8 h10 h12 h14 h16 h18
  linarith
